import Mathlib

/-!
# Verification of the process-tree lister `dog.py`

This file gives a shallow embedding of the core logic of `dog.py` — the
column rendering engine (`Display` and its subclasses), the search /
exclusion finders (`ProcessFinder`), the process enumeration, and the
process-forest selection algorithms of `ProcessTree` — and proves or
refutes the frozen claims about it.

Modelling conventions:
* Python strings are Lean `String`s; Python character-level operations
  (`len`, slicing, `str.isdecimal`) act on `String.data`, the list of
  characters.  Only ASCII inputs are considered.
* The mutable `excluded` flag of `Process` objects is modelled as a
  function `Nat → Bool` from pids to flags (`true` = excluded); the
  mutable `depth` attribute as a function `Nat → Option Nat`
  (`none` = attribute not yet set).
* The parent/children pointer graph built by
  `ProcessTree.__associate_parent_with_children` is modelled as a list of
  rose trees (`PTree`); a node's `parent` chain is recovered as the path
  handed down by the traversal (`pairsF`), with the nearest ancestor
  first, exactly as `Process.ancestors` returns it.
-/

namespace Dog

/-! ## Display columns (dog.py `Display`) -/

/-- A rendering column, class `Display` of dog.py (lines 23-41): `title` is
the column header and `max_length` the running maximum of the lengths of
the cell strings created so far (`self.max_length`, initialised to 0).
Alignment plays no role in the claims and is omitted. -/
structure Display where
  title : String
  max_length : Nat

/-- `Display.create` (dog.py lines 34-38).  The caller stringifies the
value (`str(val)`); the column enlarges `max_length` when the new cell is
longer, and the cell string itself is returned unchanged. -/
def Display.create (d : Display) (disp_val : String) : Display × String :=
  (if disp_val.length > d.max_length then { d with max_length := disp_val.length } else d,
   disp_val)

/-- `Display.get_width` (dog.py lines 40-41). -/
def Display.get_width (d : Display) : Nat :=
  max d.title.length d.max_length

/-- The column state after a sequence of `create` calls, one per element of
`cells`, in order. -/
def Display.createAll (d : Display) : List String → Display
  | [] => d
  | c :: rest => Display.createAll ((d.create c).1) rest

/-! ## The `cmd` column (dog.py `CommandDisplay`) -/

/-- `CommandDisplay.__create_space_header` (dog.py lines 99-100): the
concatenation of `depth * 2` one-space strings. -/
def create_space_header (depth : Nat) : String :=
  String.join (List.replicate (depth * 2) " ")

/-- `CommandDisplay.__trim_if_necessary` (dog.py lines 92-96).  Python
`s[:w]` keeps the first `w` characters; the configured maximum width `-w`
is taken as a natural number. -/
def trim_if_necessary (max_width : Nat) (s : String) : String :=
  if max_width = 0 then s else String.mk (s.data.take max_width)

/-- The cell string built by `CommandDisplay.create` (dog.py lines 77-90)
for a process at depth `depth` whose name is `name` and whose
`read_command_parameters()` result is `params` (Python
`' '.join(params)` is `String.intercalate " " params`). -/
def command_cell (show_command_line : Bool) (max_width : Nat) (depth : Nat)
    (name : String) (params : List String) : String :=
  let s := create_space_header depth
  let cmd_line := if show_command_line then String.intercalate " " params else ""
  let s := if cmd_line.length > 0 then s ++ cmd_line else s ++ name
  trim_if_necessary max_width s

/-! ## The memory columns (dog.py `MemoryDisplay`) -/

/-- `MemoryDisplay.unit_map` (dog.py lines 152-158): bytes per unit. -/
def unit_map : List (String × Nat) :=
  [("B", 1), ("KiB", 1024), ("MiB", 1024 * 1024),
   ("GiB", 1024 * 1024 * 1024), ("TiB", 1024 * 1024 * 1024 * 1024)]

/-- Lookup in the unit table (`self.unit_map[unit]`; the CLI restricts
`unit` to the table's keys, so the default 0 is never reached). -/
def lookupUnit : List (String × Nat) → String → Nat
  | [], _ => 0
  | (k, v) :: rest, u => if k = u then v else lookupUnit rest u

/-- Python `'%.1f' % (val / scale)` computed exactly over the rationals:
round half to even at the tenths digit, then print integer part, a dot and
the tenths digit.  (dog.py line 168; for the byte values evaluated in this
development the Python float division is exact, so the float detour of the
source introduces no deviation.) -/
def format_one_decimal (val scale : Nat) : String :=
  let num := val * 10
  let q := num / scale
  let r := num % scale
  let tenths :=
    if 2 * r < scale then q
    else if 2 * r > scale then q + 1
    else if q % 2 = 0 then q else q + 1
  toString (tenths / 10) ++ "." ++ toString (tenths % 10)

/-- The cell string built by `MemoryDisplay.create` (dog.py lines 164-169):
`B` (scale 1) prints the integer byte count, the other units print the
scaled value with one fractional digit. -/
def memory_cell (unit : String) (val : Nat) : String :=
  let scale := lookupUnit unit_map unit
  if scale = 1 then toString val else format_one_decimal val scale

/-! ## The uid/gid columns (dog.py `UidGidBaseDisplay`) -/

/-- An id→name table (`name_map`): parsed `(id, name)` pairs in file order.
Python `dict` insertion makes the *last* binding of a key win, and
`dict.get(k, k)` falls back to the key itself. -/
def nm_lookup : List (String × String) → String → Option String
  | [], _ => none
  | (a, b) :: rest, k =>
    match nm_lookup rest k with
    | some v => some v
    | none => if a = k then some b else none

/-- A uid/gid column instance (`UidGidBaseDisplay`, dog.py lines 103-128).
`inst_name_map` is the *instance* attribute `self.name_map` created by
`__create_name_map` (it shadows the class attribute once set). -/
structure UidGidDisplay where
  title : String
  use_name : Bool
  inst_name_map : Option (List (String × String))
  max_length : Nat

/-- Constructing a uid/gid column (`UidGidBaseDisplay.__init__`, dog.py
lines 106-117).  `class_name_map` models the class attribute
`UidGidBaseDisplay.name_map` (initially `None`, shared by `UidDisplay`
and `GidDisplay`).  The guard `if self.name_map is None` reads the
instance attribute when present — it never is during `__init__` — and
otherwise the class attribute.  `__create_name_map` then executes
`self.name_map = ...`, which binds the INSTANCE attribute and leaves the
class attribute unchanged.  `data` is the parsed data file, one
`(id, name)` pair per line (`get_name_map_pair`).  Returns the instance,
the class attribute after construction, and how many times the table was
built during this construction (0 or 1). -/
def mkUidGidDisplay (class_name_map : Option (List (String × String)))
    (title : String) (use_name : Bool) (data : List (String × String)) :
    UidGidDisplay × Option (List (String × String)) × Nat :=
  match class_name_map with
  | none =>
    ({ title := title, use_name := use_name, inst_name_map := some data, max_length := 0 },
     class_name_map, 1)
  | some _ =>
    ({ title := title, use_name := use_name, inst_name_map := none, max_length := 0 },
     class_name_map, 0)

/-- `UidGidBaseDisplay.create` (dog.py lines 123-128) composed with the
base `Display.create`: when `use_name` is set the id is resolved through
the name table visible to the instance (instance attribute first, class
attribute `cm` otherwise), falling back to the id itself; the cell length
is recorded.  No name table is written. -/
def UidGidDisplay.create (cm : Option (List (String × String)))
    (d : UidGidDisplay) (val : String) : UidGidDisplay × String :=
  let tbl := match d.inst_name_map with
    | some m => some m
    | none => cm
  let disp_val := if d.use_name then (nm_lookup (tbl.getD []) val).getD val else val
  ({ d with max_length := max d.max_length disp_val.length }, disp_val)

/-- The kind of a configured output column, as far as uid/gid table
building is concerned: `uidCol` covers ruid/euid/suid/fuid (`UidDisplay`,
data file `/etc/passwd`), `gidCol` covers rgid/egid/sgid/fgid
(`GidDisplay`, data file `/etc/group`), `plainCol` every other column. -/
inductive ColKind
  | uidCol
  | gidCol
  | plainCol
deriving DecidableEq

/-- `DisplayManager.__init__` (dog.py lines 359-364): construct one display
per requested column, in order, threading the class attribute
`UidGidBaseDisplay.name_map` and counting the id→name table builds
performed during the run.  `passwd` and `group` are the parsed contents of
`/etc/passwd` and `/etc/group`. -/
def build_columns (passwd group : List (String × String)) (use_name : Bool) :
    List ColKind → Option (List (String × String)) →
    Option (List (String × String)) × Nat
  | [], cm => (cm, 0)
  | c :: rest, cm =>
    match c with
    | .plainCol => build_columns passwd group use_name rest cm
    | .uidCol =>
      let r := mkUidGidDisplay cm "RUID" use_name passwd
      let rr := build_columns passwd group use_name rest r.2.1
      (rr.1, r.2.2 + rr.2)
    | .gidCol =>
      let r := mkUidGidDisplay cm "RGID" use_name group
      let rr := build_columns passwd group use_name rest r.2.1
      (rr.1, r.2.2 + rr.2)

/-- The number of uid/gid columns in a column list. -/
def idColCount : List ColKind → Nat
  | [] => 0
  | .plainCol :: rest => idColCount rest
  | .uidCol :: rest => idColCount rest + 1
  | .gidCol :: rest => idColCount rest + 1

/-! ## Search / exclusion finders (dog.py `ProcessFinder`) -/

/-- `ProcessFinder` (dog.py lines 370-394): the parsed literal pid terms,
the literal name terms, and the depth limit (`args.depth_limit`, stored on
every finder but used only by `ExclusionFinder.match`). -/
structure ProcessFinder where
  pids : List Nat
  names : List String
  depth_limit : Option Int

/-- Python `str.isdecimal` on ASCII strings: non-empty and all characters
decimal digits. -/
def isdecimal (s : String) : Bool :=
  decide (s.data ≠ []) && s.data.all Char.isDigit

/-- Python `int(s)` on a decimal digit string. -/
def strToNat (s : String) : Nat :=
  s.data.foldl (fun n c => n * 10 + (c.toNat - Char.toNat '0')) 0

/-- `ProcessFinder.__append` (dog.py lines 387-391): an all-digit term is
recorded as a pid, any other term as a process name. -/
def ProcessFinder.append (f : ProcessFinder) (target : String) : ProcessFinder :=
  if isdecimal target then { f with pids := strToNat target :: f.pids }
  else { f with names := target :: f.names }

/-- `ProcessFinder.__append_list` (dog.py lines 377-385) on the flattened
term list (the CLI hands over a list of lists; flattening preserves the
terms). -/
def ProcessFinder.appendAll (f : ProcessFinder) : List String → ProcessFinder
  | [] => f
  | t :: rest => (f.append t).appendAll rest

/-- `ProcessFinder.__init__` (dog.py lines 371-375): empty pid/name sets,
then append every term. -/
def buildFinder (depth_limit : Option Int) (terms : List String) : ProcessFinder :=
  ProcessFinder.appendAll { pids := [], names := [], depth_limit := depth_limit } terms

/-- `ProcessFinder.match` (dog.py lines 393-394): the node's pid is in the
pid set or its name is in the name set (set membership on the collected
terms). -/
def ProcessFinder.matches (f : ProcessFinder) (pid : Nat) (name : String) : Bool :=
  decide (pid ∈ f.pids) || decide (name ∈ f.names)

/-- The depth clause of `ExclusionFinder.match` (dog.py lines 410-411):
`self.depth_limit is not None and proc.depth > self.depth_limit`. -/
def depth_exceeded : Option Int → Option Nat → Bool
  | some lim, some d => decide ((d : Int) > lim)
  | _, _ => false

/-- `ExclusionFinder.match` (dog.py lines 406-412): the base match, or the
node's depth exceeds the configured depth limit.  The depth is the
process's `depth` attribute; `none` stands for the attribute not being
set, which cannot happen for a node of a well-formed forest (the source
would raise `AttributeError` there). -/
def exclusionMatch (f : ProcessFinder) (pid : Nat) (name : String)
    (depth : Option Nat) : Bool :=
  if f.matches pid name then true
  else depth_exceeded f.depth_limit depth

/-! ## Process enumeration (dog.py `ProcessTree.__list_processes`) -/

/-- The fields `Process.__init__` (dog.py lines 176-211) keeps from
`/proc/<pid>/stat`; only the ones the claims mention are retained. -/
structure StatRecord where
  pid : Nat
  name : String
  ppid : Nat
deriving DecidableEq

/-- One attempted raw read of a process record: `Process.__read_stat`
(dog.py lines 213-218) either returns the parsed record or raises
`FileNotFoundError` because the process exited between `os.listdir` and
`open` (modelled as `Except.error ()`). -/
abbrev RawRead := Except Unit StatRecord

/-- `ProcessTree.__list_processes` (dog.py lines 439-448) as consumed by
the loop in `ProcessTree.__init__` (dog.py lines 424-425).  Each
`Process(...)` construction performs the raw reads inside the generator;
dog.py contains no exception handler, so the first failing read propagates
and aborts the whole enumeration. -/
def list_processes : List RawRead → Except Unit (List StatRecord)
  | [] => .ok []
  | .error e :: _ => .error e
  | .ok r :: rest =>
    match list_processes rest with
    | .error e => .error e
    | .ok rs => .ok (r :: rs)

/-! ## The process forest (dog.py `Process` graph and `ProcessTree`)

`ProcessTree.__associate_parent_with_children` (dog.py lines 450-457)
links every `Process` to its parent and appends it to the parent's
`children` list; records whose parent pid is absent become roots.  The
resulting acyclic pointer graph is modelled as a list of rose trees, one
per root, children in insertion order.  A node's identity (`proc.pid`) and
name are its `PInfo`; pids are unique across one build because
`self.proc_map` is keyed by pid. -/

/-- The per-node data the selection algorithms read: `proc.pid` and
`proc.name`. -/
structure PInfo where
  pid : Nat
  name : String
deriving DecidableEq

/-- One tree of the process forest: a `Process` object together with its
(owned) `children` subtrees, in insertion order. -/
inductive PTree where
  | node : PInfo → List PTree → PTree

/-- The node's `PInfo`. -/
def PTree.info : PTree → PInfo
  | .node i _ => i

/-- `proc.pid`. -/
def PTree.pid (t : PTree) : Nat := t.info.pid

/-- `proc.name`. -/
def PTree.name (t : PTree) : String := t.info.name

/-- `proc.children`. -/
def PTree.children : PTree → List PTree
  | .node _ cs => cs

mutual
/-- `Process.descendants` (dog.py lines 259-268): for each child, append
the child and then recursively its descendants (a preorder walk of the
strict descendants). -/
def descT : PTree → List PTree
  | .node _ cs => descF cs
/-- `collect_descendants` over a list of sibling subtrees: every tree of
the list together with its strict descendants, in preorder. -/
def descF : List PTree → List PTree
  | [] => []
  | c :: rest => c :: (descT c ++ descF rest)
end

mutual
/-- `ProcessTree.__iterate_process_tree(force_all=True)` (dog.py lines
459-471) restricted to one subtree, with the ancestor chain made explicit:
each visited node is paired with the list `Process.ancestors` (dog.py
lines 251-257) would return for it — the `parent` chain, nearest ancestor
first.  `path` is the ancestor chain of the subtree's root. -/
def pairsT (path : List PTree) : PTree → List (PTree × List PTree)
  | .node i cs => (.node i cs, path) :: pairsF (.node i cs :: path) cs
/-- `pairsT` over a list of sibling subtrees sharing the ancestor chain
`path`. -/
def pairsF (path : List PTree) : List PTree → List (PTree × List PTree)
  | [] => []
  | t :: ts => pairsT path t ++ pairsF path ts
end

mutual
/-- `ProcessTree.__iterate_process_tree` without `force_all` (dog.py lines
459-471) on one subtree: stop (returning nothing) at an excluded node,
otherwise the node followed by the traversal of its children.  `E` is the
excluded-flag state, `true` = excluded. -/
def iterT (E : Nat → Bool) : PTree → List PTree
  | .node i cs => if E i.pid then [] else .node i cs :: iterF E cs
/-- `iterT` over a list of sibling subtrees. -/
def iterF (E : Nat → Bool) : List PTree → List PTree
  | [] => []
  | t :: ts => iterT E t ++ iterF E ts
end

/-- Point update of the excluded-flag state: `proc.excluded = False` for
the process with pid `p`. -/
def setVisible (E : Nat → Bool) (p : Nat) : Nat → Bool :=
  fun q => if q = p then false else E q

/-- `pickup_branch` (dog.py lines 479-485): walk the given chain; stop at
the first process that is not excluded (its whole remaining chain was
already picked up), otherwise clear the flag and continue. -/
def pickupBranch (E : Nat → Bool) : List PTree → (Nat → Bool)
  | [] => E
  | t :: rest => if E t.pid then pickupBranch (setVisible E t.pid) rest else E

/-- The loop of `ProcessTree.__pickup_seached_processes` (dog.py lines
487-496): over the full preorder (with ancestor chains), skip nodes that
do not match the search finder and nodes already picked up; otherwise
clear the node's flag and pick up its ancestor chain and its descendant
chain. -/
def pickupLoop (f : ProcessFinder) (E : Nat → Bool) :
    List (PTree × List PTree) → (Nat → Bool)
  | [] => E
  | (t, anc) :: rest =>
    if f.matches t.pid t.name = false then pickupLoop f E rest
    else if E t.pid = false then pickupLoop f E rest
    else pickupLoop f (pickupBranch (pickupBranch (setVisible E t.pid) anc) (descT t)) rest

/-- `ProcessTree.__pickup_seached_processes` (dog.py lines 473-496):
`exclude_all_processes` marks every process excluded (modelled as the
constant `true` state; only pids of forest nodes are ever consulted), then
the pickup loop runs over the full preorder. -/
def pickupSearched (f : ProcessFinder) (F : List PTree) : Nat → Bool :=
  pickupLoop f (fun _ => true) (pairsF [] F)

/-- Point update of the depth map: `proc.depth = v`. -/
def setDepth (m : Nat → Option Nat) (p : Nat) (v : Option Nat) : Nat → Option Nat :=
  fun q => if q = p then v else m q

/-- `ProcessTree.__set_depth_of_process` (dog.py lines 503-508): iterate
the full preorder (no process is excluded at this stage of `__init__`);
a root gets depth 0, any other node its parent's depth plus one.  The
parent is the head of the node's ancestor chain; reading a parent depth
that is not yet set would raise `AttributeError` in the source and is
modelled as `none`. -/
def setDepths : List (PTree × List PTree) → (Nat → Option Nat) → (Nat → Option Nat)
  | [], m => m
  | (t, anc) :: rest, m =>
    match anc with
    | [] => setDepths rest (setDepth m t.pid (some 0))
    | p :: _ =>
      setDepths rest (setDepth m t.pid
        (match m p.pid with
         | some dp => some (dp + 1)
         | none => none))

/-- The depth attribute of every node of the forest `F` after
`ProcessTree.__set_depth_of_process`. -/
def depthMap (F : List PTree) : Nat → Option Nat :=
  setDepths (pairsF [] F) (fun _ => none)

/-- The loop body of `ProcessTree.__mark_excluded_processes` (dog.py lines
500-501): run through the pre-built process list and set each listed
process's flag to the exclusion finder's verdict. -/
def markList (f : ProcessFinder) (dm : Nat → Option Nat) :
    List PTree → (Nat → Bool) → (Nat → Bool)
  | [], E => E
  | t :: rest, E =>
    markList f dm rest
      (fun q => if q = t.pid then exclusionMatch f t.pid t.name (dm t.pid) else E q)

/-- `ProcessTree.__mark_excluded_processes` (dog.py lines 499-501): build
the visible-pruned traversal list under the current flags, then set every
listed process's flag to the exclusion finder's verdict.  Processes not in
the list keep their flags. -/
def markExcluded (f : ProcessFinder) (dm : Nat → Option Nat) (F : List PTree)
    (E : Nat → Bool) : Nat → Bool :=
  markList f dm (iterF E F) E

/-- The selection phase of `ProcessTree.__init__` (dog.py lines 417-433):
depths are computed first, then — when at least one search term was given
— the search pickup runs, and finally the exclusion pass.  The result maps
each pid to its final excluded flag (`false` = visible; every `excluded`
flag starts out `False`, dog.py line 189). -/
def selectionRun (searchTerms exclTerms : List String) (depth_limit : Option Int)
    (F : List PTree) : Nat → Bool :=
  let sf := buildFinder depth_limit searchTerms
  let ef := buildFinder depth_limit exclTerms
  let dm := depthMap F
  let E0 : Nat → Bool := fun _ => false
  let E1 := if 0 < searchTerms.length then pickupLoop sf (fun _ => true) (pairsF [] F) else E0
  markExcluded ef dm F E1

/-- Modelled from the spec side of claim C1 (search with context): node
`t` is in the search closure when it matches the search finder, or is an
ancestor of a node of the forest matching the search finder (it occurs on
that node's ancestor chain), or is a descendant of such a node.  This is
the claimed characterisation, to be compared with what the algorithm
`pickupSearched` computes. -/
def searchClosure (f : ProcessFinder) (F : List PTree) (t : PTree) : Prop :=
  f.matches t.pid t.name = true ∨
  ∃ m manc, (m, manc) ∈ pairsF [] F ∧ f.matches m.pid m.name = true ∧
    (t ∈ manc ∨ t ∈ descT m)

/-! ## Column width accumulation (claim C8) -/

theorem Display.create_title (d : Display) (c : String) :
    ((d.create c).1).title = d.title := by
  unfold Display.create
  split <;> rfl

theorem Display.createAll_title (d : Display) (cells : List String) :
    (d.createAll cells).title = d.title := by
  induction cells generalizing d with
  | nil => rfl
  | cons c rest ih =>
    rw [Display.createAll, ih, Display.create_title]

theorem Display.create_max_length (d : Display) (c : String) :
    d.max_length ≤ ((d.create c).1).max_length ∧
    c.length ≤ ((d.create c).1).max_length := by
  unfold Display.create
  split
  next h => exact ⟨Nat.le_of_lt h, Nat.le_refl _⟩
  next h => exact ⟨Nat.le_refl _, Nat.le_of_not_lt h⟩

theorem Display.createAll_max_length (d : Display) (cells : List String) :
    d.max_length ≤ (d.createAll cells).max_length := by
  induction cells generalizing d with
  | nil => exact le_refl _
  | cons c rest ih =>
    rw [Display.createAll]
    exact le_trans (Display.create_max_length d c).1 (ih _)

theorem Display.createAll_cell_length (d : Display) (cells : List String) :
    ∀ c ∈ cells, c.length ≤ (d.createAll cells).max_length := by
  induction cells generalizing d with
  | nil => intro c hc; cases hc
  | cons c rest ih =>
    intro x hx
    rw [Display.createAll]
    rcases List.mem_cons.mp hx with h | h
    · subst h
      exact le_trans (Display.create_max_length d x).2 (Display.createAll_max_length _ rest)
    · exact ih _ x h

/-- C8: for every column, after any sequence of cell creations the
column's effective width (`get_width`) is at least the length of the
column title and at least the length of every cell string created in the
column so far. -/
theorem c8_column_width (title : String) (cells : List String) :
    title.length ≤ (Display.createAll ⟨title, 0⟩ cells).get_width ∧
    ∀ c ∈ cells, c.length ≤ (Display.createAll ⟨title, 0⟩ cells).get_width := by
  constructor
  · rw [Display.get_width, Display.createAll_title]
    exact le_max_left _ _
  · intro c hc
    exact le_trans (Display.createAll_cell_length _ cells c hc)
      (le_max_right _ _)

theorem c8_column_width_witness :
    ("PID" : String).length ≤ (Display.createAll ⟨"PID", 0⟩ ["12", "34567"]).get_width ∧
    ("34567" : String).length ≤ (Display.createAll ⟨"PID", 0⟩ ["12", "34567"]).get_width :=
  ⟨(c8_column_width "PID" ["12", "34567"]).1,
   (c8_column_width "PID" ["12", "34567"]).2 "34567" (by simp)⟩

/-! ## The `cmd` column cell (claim C7) -/

theorem foldl_append_replicate_space (n : Nat) :
    ∀ s : String,
      (List.foldl (fun r t => r ++ t) s (List.replicate n " ")).data =
        s.data ++ List.replicate n ' ' := by
  induction n with
  | zero => intro s; simp
  | succ k ih =>
    intro s
    rw [List.replicate_succ, List.foldl_cons, ih]
    rw [String.data_append, List.append_assoc]
    rfl

theorem create_space_header_data (depth : Nat) :
    (create_space_header depth).data = List.replicate (2 * depth) ' ' := by
  show (List.foldl (fun r t => r ++ t) "" (List.replicate (depth * 2) " ")).data = _
  rw [foldl_append_replicate_space (depth * 2) ""]
  show List.replicate (depth * 2) ' ' = _
  rw [Nat.mul_comm]

theorem string_ne_empty_iff (s : String) : s ≠ "" ↔ s.data ≠ [] := by
  rw [ne_eq, String.ext_iff]

theorem command_cell_eq (show_cl : Bool) (w depth : Nat) (name : String)
    (params : List String) :
    command_cell show_cl w depth name params =
      trim_if_necessary w (create_space_header depth ++
        (if show_cl = true ∧ String.intercalate " " params ≠ ""
         then String.intercalate " " params else name)) := by
  rw [command_cell]
  cases show_cl with
  | false => simp
  | true =>
    by_cases hj : String.intercalate " " params = ""
    · rw [hj]
      simp
    · have hd : (String.intercalate " " params).data ≠ [] :=
        (string_ne_empty_iff _).mp hj
      have hl : 0 < (String.intercalate " " params).length :=
        List.length_pos.mpr hd
      simp [hj, hl]

/-- C7: the `cmd` cell is two spaces per depth level, then the
space-joined command line when command-line display is enabled and the
joined string is non-empty, else the process name; a configured maximum
width of 0 truncates nothing, any other width truncates the concatenated
string to that many characters. -/
theorem c7_command_cell (show_cl : Bool) (w depth : Nat) (name : String)
    (params : List String) :
    (create_space_header depth).data = List.replicate (2 * depth) ' ' ∧
    command_cell show_cl 0 depth name params =
      create_space_header depth ++
        (if show_cl = true ∧ String.intercalate " " params ≠ ""
         then String.intercalate " " params else name) ∧
    (w ≠ 0 →
      command_cell show_cl w depth name params =
        String.mk ((create_space_header depth ++
          (if show_cl = true ∧ String.intercalate " " params ≠ ""
           then String.intercalate " " params else name)).data.take w) ∧
      (command_cell show_cl w depth name params).length ≤ w) := by
  refine ⟨create_space_header_data depth, ?_, ?_⟩
  · rw [command_cell_eq, trim_if_necessary, if_pos rfl]
  · intro hw
    constructor
    · rw [command_cell_eq, trim_if_necessary, if_neg hw]
    · rw [command_cell_eq, trim_if_necessary, if_neg hw]
      show ((_ : String).data.take w).length ≤ w
      exact List.length_take_le w _

theorem c7_command_cell_witness :
    command_cell true 3 1 "nm" ["ab", "cd"] =
      String.mk ((create_space_header 1 ++
        (if (true : Bool) = true ∧ String.intercalate " " ["ab", "cd"] ≠ ""
         then String.intercalate " " ["ab", "cd"] else "nm")).data.take 3) ∧
    (command_cell true 3 1 "nm" ["ab", "cd"]).length ≤ 3 :=
  (c7_command_cell true 3 1 "nm" ["ab", "cd"]).2.2 (by decide)

/-! ## The memory column cell (claim C9) -/

/-- C9: a memory column cell for 2097152 bytes renders `2.0` under unit
`MiB` and `2097152` under unit `B`. -/
theorem c9_memory_units :
    memory_cell "MiB" 2097152 = "2.0" ∧ memory_cell "B" 2097152 = "2097152" := by
  constructor <;> decide

/-! ## Term classification in finders (claim C10) -/

theorem matches_append (f : ProcessFinder) (t : String) (pid : Nat) (name : String) :
    ((f.append t).matches pid name = true) ↔
      (f.matches pid name = true ∨
       (isdecimal t = true ∧ pid = strToNat t) ∨
       (isdecimal t = false ∧ name = t)) := by
  rw [ProcessFinder.append]
  by_cases h : isdecimal t = true
  · rw [if_pos h]
    simp [ProcessFinder.matches, h]
    tauto
  · rw [if_neg h]
    rw [Bool.not_eq_true] at h
    simp [ProcessFinder.matches, h]
    tauto

theorem matches_appendAll (f : ProcessFinder) (ts : List String)
    (pid : Nat) (name : String) :
    ((f.appendAll ts).matches pid name = true) ↔
      (f.matches pid name = true ∨
       ∃ t ∈ ts, (isdecimal t = true ∧ pid = strToNat t) ∨
                 (isdecimal t = false ∧ name = t)) := by
  induction ts generalizing f with
  | nil => simp [ProcessFinder.appendAll]
  | cons t rest ih =>
    rw [ProcessFinder.appendAll, ih, matches_append]
    simp only [List.mem_cons]
    constructor
    · rintro ((h | h) | ⟨u, hu, h⟩)
      · exact Or.inl h
      · exact Or.inr ⟨t, Or.inl rfl, h⟩
      · exact Or.inr ⟨u, Or.inr hu, h⟩
    · rintro (h | ⟨u, (rfl | hu), h⟩)
      · exact Or.inl (Or.inl h)
      · exact Or.inl (Or.inr h)
      · exact Or.inr ⟨u, hu, h⟩

theorem names_appendAll (f : ProcessFinder) (ts : List String) :
    ∀ t ∈ (f.appendAll ts).names, t ∈ f.names ∨ isdecimal t = false := by
  induction ts generalizing f with
  | nil => intro t ht; exact Or.inl ht
  | cons u rest ih =>
    intro t ht
    rw [ProcessFinder.appendAll] at ht
    rcases ih _ t ht with h | h
    · rw [ProcessFinder.append] at h
      by_cases hu : isdecimal u = true
      · rw [if_pos hu] at h
        exact Or.inl h
      · rw [if_neg hu] at h
        rcases List.mem_cons.mp h with rfl | h
        · exact Or.inr (Bool.not_eq_true _ |>.mp hu)
        · exact Or.inl h
    · exact Or.inr h

/-- C10: a term is recorded as a pid exactly when it consists solely of
decimal digits (then compared against node pids as an integer), and as a
process name otherwise; in particular the name set of a finder contains no
all-digit term, so an all-digit term never matches a node by name. -/
theorem c10_term_classification (depth_limit : Option Int) (terms : List String)
    (pid : Nat) (name : String) :
    (((buildFinder depth_limit terms).matches pid name = true) ↔
      ∃ t ∈ terms, (isdecimal t = true ∧ pid = strToNat t) ∨
                   (isdecimal t = false ∧ name = t)) ∧
    (∀ t ∈ (buildFinder depth_limit terms).names, isdecimal t = false) := by
  constructor
  · rw [buildFinder, matches_appendAll]
    simp [ProcessFinder.matches]
  · intro t ht
    rcases names_appendAll _ terms t ht with h | h
    · cases h
    · exact h

theorem c10_term_classification_witness :
    (((buildFinder none ["123", "ab"]).matches 123 "zzz" = true) ↔
      ∃ t ∈ ["123", "ab"], (isdecimal t = true ∧ 123 = strToNat t) ∨
                           (isdecimal t = false ∧ "zzz" = t)) ∧
    isdecimal "ab" = false :=
  ⟨(c10_term_classification none ["123", "ab"] 123 "zzz").1,
   (c10_term_classification none ["123", "ab"] 123 "zzz").2 "ab" (by decide)⟩

/-! ## Vanished processes abort the enumeration (claim C3) -/

/-- C3 counterexample: with the middle record's read failing (the process
exited between enumeration and read), the enumeration yields the error —
the record is not omitted with the remaining records kept. -/
theorem c3_counterexample :
    list_processes [.ok ⟨1, "init", 0⟩, .error (), .ok ⟨2, "bash", 1⟩] = .error () ∧
    list_processes [.ok ⟨1, "init", 0⟩, .error (), .ok ⟨2, "bash", 1⟩] ≠
      .ok [⟨1, "init", 0⟩, ⟨2, "bash", 1⟩] :=
  ⟨rfl, fun h => Except.noConfusion h⟩

/-- C3 as the code behaves: a failing raw record read propagates out of
the enumeration and aborts it — all records are materialized only when
every read succeeds. -/
theorem c3_read_failure_aborts (reads : List RawRead) :
    ((∀ r ∈ reads, r.isOk = true) →
      list_processes reads = .ok (reads.filterMap Except.toOption)) ∧
    ((∃ r ∈ reads, r.isOk = false) → list_processes reads = .error ()) := by
  induction reads with
  | nil =>
    constructor
    · intro _; rfl
    · rintro ⟨r, hr, _⟩; cases hr
  | cons r rest ih =>
    cases r with
    | error e =>
      cases e
      constructor
      · intro h
        exact absurd (h _ (List.mem_cons_self _ _)) (by decide)
      · intro _; rfl
    | ok v =>
      constructor
      · intro h
        have hrest := ih.1 (fun x hx => h x (List.mem_cons_of_mem _ hx))
        rw [list_processes, hrest]
        rfl
      · rintro ⟨x, hx, hxk⟩
        rcases List.mem_cons.mp hx with rfl | hx
        · exact Bool.noConfusion hxk
        · have hrest := ih.2 ⟨x, hx, hxk⟩
          rw [list_processes, hrest]

theorem c3_read_failure_aborts_witness :
    list_processes [.ok ⟨1, "init", 0⟩] = .ok [⟨1, "init", 0⟩] ∧
    list_processes [.ok ⟨1, "init", 0⟩, .error ()] = .error () :=
  ⟨(c3_read_failure_aborts [.ok ⟨1, "init", 0⟩]).1 (by decide),
   (c3_read_failure_aborts [.ok ⟨1, "init", 0⟩, .error ()]).2
     ⟨.error (), by simp, rfl⟩⟩

/-! ## uid/gid lookup tables are rebuilt per column instance (claim C5) -/

/-- C5 counterexample: two uid columns in one run trigger two table
builds, not at most one. -/
theorem c5_counterexample :
    (build_columns [] [] true [.uidCol, .uidCol] none).2 = 2 ∧
    ¬ ((build_columns [] [] true [.uidCol, .uidCol] none).2 ≤ 1) := by
  constructor <;> decide

/-- C5 as the code behaves: from the initial `None` class attribute, every
uid/gid column instance builds its own table (the build count equals the
number of uid/gid columns), the shared class attribute is never populated,
and `create` never modifies an instance's table. -/
theorem c5_tables_rebuilt_per_instance (passwd group : List (String × String))
    (use_name : Bool) (cols : List ColKind) :
    build_columns passwd group use_name cols none = (none, idColCount cols) ∧
    (∀ cm d v, ((UidGidDisplay.create cm d v).1).inst_name_map = d.inst_name_map) := by
  refine ⟨?_, fun cm d v => rfl⟩
  induction cols with
  | nil => rfl
  | cons c rest ih =>
    cases c with
    | plainCol =>
      rw [build_columns, idColCount, ih]
    | uidCol =>
      rw [build_columns, idColCount]
      rw [show mkUidGidDisplay none "RUID" use_name passwd =
        ({ title := "RUID", use_name := use_name, inst_name_map := some passwd,
           max_length := 0 }, none, 1) from rfl]
      rw [ih]
      simp [Nat.add_comm]
    | gidCol =>
      rw [build_columns, idColCount]
      rw [show mkUidGidDisplay none "RGID" use_name group =
        ({ title := "RGID", use_name := use_name, inst_name_map := some group,
           max_length := 0 }, none, 1) from rfl]
      rw [ih]
      simp [Nat.add_comm]

/-! ## General list helpers for the forest proofs -/

theorem two_mem_split {α : Type} (l : List α) :
    ∀ (A : List α) (x : α) (X : List α) (B : List α) (y : α) (Y : List α),
      l = A ++ x :: X → l = B ++ y :: Y →
      (x = y ∧ A = B ∧ X = Y) ∨ y ∈ X ∨ x ∈ Y := by
  induction l with
  | nil =>
    intro A x X B y Y hA _
    exact absurd hA (by cases A <;> simp)
  | cons c rest ih =>
    intro A x X B y Y hA hB
    cases A with
    | nil =>
      simp only [List.nil_append, List.cons.injEq] at hA
      obtain ⟨rfl, rfl⟩ := hA
      cases B with
      | nil =>
        simp only [List.nil_append, List.cons.injEq] at hB
        obtain ⟨rfl, rfl⟩ := hB
        exact Or.inl ⟨rfl, rfl, rfl⟩
      | cons b B2 =>
        simp only [List.cons_append, List.cons.injEq] at hB
        refine Or.inr (Or.inl ?_)
        rw [hB.2]
        exact List.mem_append_right B2 (List.mem_cons_self _ _)
    | cons a A2 =>
      simp only [List.cons_append, List.cons.injEq] at hA
      cases B with
      | nil =>
        simp only [List.nil_append, List.cons.injEq] at hB
        obtain ⟨rfl, rfl⟩ := hB
        refine Or.inr (Or.inr ?_)
        rw [hA.2]
        exact List.mem_append_right A2 (List.mem_cons_self _ _)
      | cons b B2 =>
        simp only [List.cons_append, List.cons.injEq] at hB
        rcases ih A2 x X B2 y Y hA.2 hB.2 with ⟨h1, h2, h3⟩ | h | h
        · exact Or.inl ⟨h1, by rw [← hA.1, ← hB.1, h2], h3⟩
        · exact Or.inr (Or.inl h)
        · exact Or.inr (Or.inr h)

theorem pairwise_of_splits {α : Type} (R : α → α → Prop) :
    ∀ l : List α, (∀ A x B, l = A ++ x :: B → ∀ y ∈ B, R x y) → l.Pairwise R := by
  intro l
  induction l with
  | nil => intro _; exact List.Pairwise.nil
  | cons c rest ih =>
    intro h
    refine List.Pairwise.cons ?_ (ih ?_)
    · intro y hy
      exact h [] c rest rfl y hy
    · intro A x B hAB y hy
      exact h (c :: A) x B (by rw [List.cons_append, hAB]) y hy

theorem nodup_map_mid {α β : Type} (f : α → β) (A B : List α) (x : α)
    (h : ((A ++ x :: B).map f).Nodup) :
    (∀ a ∈ A, f a ≠ f x) ∧ (∀ b ∈ B, f b ≠ f x) := by
  rw [List.map_append, List.map_cons, List.nodup_append] at h
  obtain ⟨_, h2, h3⟩ := h
  constructor
  · intro a ha hfa
    exact h3 (List.mem_map_of_mem f ha) (by rw [hfa]; exact List.mem_cons_self _ _)
  · intro b hb hfb
    exact (List.nodup_cons.mp h2).1 (by rw [← hfb]; exact List.mem_map_of_mem f hb)

theorem split_of_append_eq {α : Type} (A B l₁ l₂ : List α) (x : α)
    (h : A ++ B = l₁ ++ x :: l₂) :
    (∃ l₂a, A = l₁ ++ x :: l₂a ∧ l₂ = l₂a ++ B) ∨
    (∃ l₁b, B = l₁b ++ x :: l₂ ∧ l₁ = A ++ l₁b) := by
  rcases List.append_eq_append_iff.mp h with ⟨a2, ha, hb⟩ | ⟨c2, hc, hd⟩
  · exact Or.inr ⟨a2, hb, ha⟩
  · cases c2 with
    | nil =>
      simp only [List.nil_append] at hd
      refine Or.inr ⟨[], hd.symm ▸ rfl, ?_⟩
      rw [hc, List.append_nil, List.append_nil]
    | cons z c3 =>
      simp only [List.cons_append, List.cons.injEq] at hd
      obtain ⟨rfl, rfl⟩ := hd
      exact Or.inl ⟨c3, hc, rfl⟩

/-! ## Structural facts about the forest traversals -/

mutual
theorem pairsT_map_fst (path : List PTree) (t : PTree) :
    (pairsT path t).map Prod.fst = t :: descT t := by
  match t with
  | .node i cs =>
    simp [pairsT, descT, pairsF_map_fst (PTree.node i cs :: path) cs]
theorem pairsF_map_fst (path : List PTree) (ts : List PTree) :
    (pairsF path ts).map Prod.fst = descF ts := by
  match ts with
  | [] => simp [pairsF, descF]
  | t :: rest =>
    simp [pairsF, descF, pairsT_map_fst path t, pairsF_map_fst path rest]
end

mutual
theorem descT_trans (t : PTree) : ∀ d ∈ descT t, ∀ e ∈ descT d, e ∈ descT t := by
  match t with
  | .node i cs =>
    intro d hd e he
    rw [descT] at hd ⊢
    exact descF_trans cs d hd e he
theorem descF_trans (ts : List PTree) : ∀ d ∈ descF ts, ∀ e ∈ descT d, e ∈ descF ts := by
  match ts with
  | [] => intro d hd; cases hd
  | c :: rest =>
    intro d hd e he
    rw [descF] at hd ⊢
    rcases List.mem_cons.mp hd with rfl | hd
    · exact List.mem_cons_of_mem _ (List.mem_append_left _ he)
    · rcases List.mem_append.mp hd with hd | hd
      · exact List.mem_cons_of_mem _
          (List.mem_append_left _ (descT_trans c d hd e he))
      · exact List.mem_cons_of_mem _
          (List.mem_append_right _ (descF_trans rest d hd e he))
end

mutual
theorem pairs_anc_T (path : List PTree) (t : PTree) :
    ∀ d danc, (d, danc) ∈ pairsT path t →
      (d = t ∧ danc = path) ∨
      (∃ mid, danc = mid ++ t :: path ∧ (∀ x ∈ mid, x ∈ descT t) ∧ d ∈ descT t) := by
  match t with
  | .node i cs =>
    intro d danc hm
    rw [pairsT] at hm
    rcases List.mem_cons.mp hm with h | h
    · obtain ⟨rfl, rfl⟩ := Prod.mk.injEq .. ▸ h
      exact Or.inl ⟨rfl, rfl⟩
    · obtain ⟨mid, hmid, hx, hd⟩ := pairs_anc_F (PTree.node i cs :: path) cs d danc h
      refine Or.inr ⟨mid, hmid, ?_, ?_⟩
      · intro x hxm
        rw [descT]
        exact hx x hxm
      · rw [descT]
        exact hd
theorem pairs_anc_F (path : List PTree) (ts : List PTree) :
    ∀ d danc, (d, danc) ∈ pairsF path ts →
      ∃ mid, danc = mid ++ path ∧ (∀ x ∈ mid, x ∈ descF ts) ∧ d ∈ descF ts := by
  match ts with
  | [] => intro d danc hm; cases hm
  | c :: rest =>
    intro d danc hm
    rw [pairsF] at hm
    rcases List.mem_append.mp hm with h | h
    · rcases pairs_anc_T path c d danc h with ⟨rfl, rfl⟩ | ⟨mid, hmid, hx, hd⟩
      · refine ⟨[], rfl, fun x hx => absurd hx (List.not_mem_nil x), ?_⟩
        rw [descF]
        exact List.mem_cons_self _ _
      · refine ⟨mid ++ [c], by rw [hmid, List.append_assoc]; rfl, ?_, ?_⟩
        · intro x hxm
          rw [descF]
          rcases List.mem_append.mp hxm with hxm | hxm
          · exact List.mem_cons_of_mem _ (List.mem_append_left _ (hx x hxm))
          · rcases List.mem_cons.mp hxm with rfl | hxm
            · exact List.mem_cons_self _ _
            · cases hxm
        · rw [descF]
          exact List.mem_cons_of_mem _ (List.mem_append_left _ hd)
    · obtain ⟨mid, hmid, hx, hd⟩ := pairs_anc_F path rest d danc h
      refine ⟨mid, hmid, ?_, ?_⟩
      · intro x hxm
        rw [descF]
        exact List.mem_cons_of_mem _ (List.mem_append_right _ (hx x hxm))
      · rw [descF]
        exact List.mem_cons_of_mem _ (List.mem_append_right _ hd)
end

mutual
theorem anc_split_T (path : List PTree) (t : PTree) :
    ∀ u anc pre a post, (u, anc) ∈ pairsT path t → anc = pre ++ a :: post →
      ((a, post) ∈ pairsT path t ∧ u ∈ descT a) ∨ (∃ pre2, path = pre2 ++ a :: post) := by
  match t with
  | .node i cs =>
    intro u anc pre a post hm hs
    rw [pairsT] at hm
    rcases List.mem_cons.mp hm with h | h
    · obtain ⟨rfl, rfl⟩ := Prod.mk.injEq .. ▸ h
      exact Or.inr ⟨pre, hs⟩
    · rcases anc_split_F (PTree.node i cs :: path) cs u anc pre a post h hs with
        ⟨hmem, hdesc⟩ | ⟨pre2, hp⟩
      · refine Or.inl ⟨?_, hdesc⟩
        rw [pairsT]
        exact List.mem_cons_of_mem _ hmem
      · cases pre2 with
        | nil =>
          simp only [List.nil_append, List.cons.injEq] at hp
          obtain ⟨rfl, rfl⟩ := hp
          refine Or.inl ⟨?_, ?_⟩
          · rw [pairsT]
            exact List.mem_cons_self _ _
          · obtain ⟨_, _, _, hu⟩ := pairs_anc_F (PTree.node i cs :: path) cs u anc h
            rw [descT]
            exact hu
        | cons z pre3 =>
          simp only [List.cons_append, List.cons.injEq] at hp
          exact Or.inr ⟨pre3, hp.2⟩
theorem anc_split_F (path : List PTree) (ts : List PTree) :
    ∀ u anc pre a post, (u, anc) ∈ pairsF path ts → anc = pre ++ a :: post →
      ((a, post) ∈ pairsF path ts ∧ u ∈ descT a) ∨ (∃ pre2, path = pre2 ++ a :: post) := by
  match ts with
  | [] => intro u anc pre a post hm; cases hm
  | c :: rest =>
    intro u anc pre a post hm hs
    rw [pairsF] at hm
    rcases List.mem_append.mp hm with h | h
    · rcases anc_split_T path c u anc pre a post h hs with ⟨hmem, hdesc⟩ | hp
      · refine Or.inl ⟨?_, hdesc⟩
        rw [pairsF]
        exact List.mem_append_left _ hmem
      · exact Or.inr hp
    · rcases anc_split_F path rest u anc pre a post h hs with ⟨hmem, hdesc⟩ | hp
      · refine Or.inl ⟨?_, hdesc⟩
        rw [pairsF]
        exact List.mem_append_right _ hmem
      · exact Or.inr hp
end

mutual
theorem segment_T (path : List PTree) (t : PTree) :
    ∀ u anc, (u, anc) ∈ pairsT path t →
      ∃ A B, pairsT path t = A ++ pairsT anc u ++ B := by
  match t with
  | .node i cs =>
    intro u anc hm
    rw [pairsT] at hm
    rcases List.mem_cons.mp hm with h | h
    · obtain ⟨rfl, rfl⟩ := Prod.mk.injEq .. ▸ h
      exact ⟨[], [], by simp⟩
    · obtain ⟨A, B, hAB⟩ := segment_F (PTree.node i cs :: path) cs u anc h
      refine ⟨(PTree.node i cs, path) :: A, B, ?_⟩
      rw [pairsT, hAB]
      simp
theorem segment_F (path : List PTree) (ts : List PTree) :
    ∀ u anc, (u, anc) ∈ pairsF path ts →
      ∃ A B, pairsF path ts = A ++ pairsT anc u ++ B := by
  match ts with
  | [] => intro u anc hm; cases hm
  | c :: rest =>
    intro u anc hm
    rw [pairsF] at hm
    rcases List.mem_append.mp hm with h | h
    · obtain ⟨A, B, hAB⟩ := segment_T path c u anc h
      refine ⟨A, B ++ pairsF path rest, ?_⟩
      rw [pairsF, hAB]
      simp
    · obtain ⟨A, B, hAB⟩ := segment_F path rest u anc h
      refine ⟨pairsT path c ++ A, B, ?_⟩
      rw [pairsF, hAB]
      simp
end

mutual
theorem order_T (path : List PTree) (t : PTree) :
    ∀ l₁ u anc l₂, pairsT path t = l₁ ++ (u, anc) :: l₂ →
      ∀ a ∈ anc, a ∈ path ∨ ∃ anc2, (a, anc2) ∈ l₁ := by
  match t with
  | .node i cs =>
    intro l₁ u anc l₂ hsplit a ha
    rw [pairsT] at hsplit
    cases l₁ with
    | nil =>
      simp only [List.nil_append, List.cons.injEq] at hsplit
      obtain ⟨h1, _⟩ := hsplit
      obtain ⟨rfl, rfl⟩ := Prod.mk.injEq .. ▸ h1.symm
      exact Or.inl ha
    | cons h₁ l₁t =>
      simp only [List.cons_append, List.cons.injEq] at hsplit
      obtain ⟨rfl, h2⟩ := hsplit
      rcases order_F (PTree.node i cs :: path) cs l₁t u anc l₂ h2 a ha with h | ⟨anc2, hm⟩
      · rcases List.mem_cons.mp h with rfl | h
        · exact Or.inr ⟨path, List.mem_cons_self _ _⟩
        · exact Or.inl h
      · exact Or.inr ⟨anc2, List.mem_cons_of_mem _ hm⟩
theorem order_F (path : List PTree) (ts : List PTree) :
    ∀ l₁ u anc l₂, pairsF path ts = l₁ ++ (u, anc) :: l₂ →
      ∀ a ∈ anc, a ∈ path ∨ ∃ anc2, (a, anc2) ∈ l₁ := by
  match ts with
  | [] =>
    intro l₁ u anc l₂ hsplit
    exact absurd hsplit.symm (by cases l₁ <;> simp [pairsF])
  | c :: rest =>
    intro l₁ u anc l₂ hsplit a ha
    rw [pairsF] at hsplit
    rcases split_of_append_eq _ _ _ _ _ hsplit with ⟨l₂a, hT, _⟩ | ⟨l₁b, hF, hl₁⟩
    · exact order_T path c l₁ u anc l₂a hT a ha
    · rcases order_F path rest l₁b u anc l₂ hF a ha with h | ⟨anc2, hm⟩
      · exact Or.inl h
      · exact Or.inr ⟨anc2, by rw [hl₁]; exact List.mem_append_right _ hm⟩
end

/-! ## Derived facts about the full traversal of a duplicate-free forest -/

theorem pairs_pid_nodup (F : List PTree)
    (hn : ((descF F).map PTree.pid).Nodup) :
    ((pairsF [] F).map (fun x => x.1.pid)).Nodup := by
  have h : (pairsF [] F).map (fun x => x.1.pid) = (descF F).map PTree.pid := by
    rw [show (fun x : PTree × List PTree => x.1.pid) = PTree.pid ∘ Prod.fst from rfl,
        ← List.map_map, pairsF_map_fst]
  rw [h]
  exact hn

theorem pairs_pid_inj (F : List PTree)
    (hn : ((descF F).map PTree.pid).Nodup) :
    ∀ p₁ ∈ pairsF [] F, ∀ p₂ ∈ pairsF [] F, p₁.1.pid = p₂.1.pid → p₁ = p₂ :=
  fun _ h₁ _ h₂ he => List.inj_on_of_nodup_map (pairs_pid_nodup F hn) h₁ h₂ he

theorem anc_mem (F : List PTree) :
    ∀ u anc pre a post, (u, anc) ∈ pairsF [] F → anc = pre ++ a :: post →
      (a, post) ∈ pairsF [] F ∧ u ∈ descT a := by
  intro u anc pre a post hm hs
  rcases anc_split_F [] F u anc pre a post hm hs with h | ⟨pre2, hp⟩
  · exact h
  · exact absurd hp (by cases pre2 <;> simp)

theorem seg_pid_nodup (F : List PTree)
    (hn : ((descF F).map PTree.pid).Nodup) :
    ∀ t anc, (t, anc) ∈ pairsF [] F → ((t :: descT t).map PTree.pid).Nodup := by
  intro t anc hm
  obtain ⟨A, B, hseg⟩ := segment_F [] F t anc hm
  have h1 : ((pairsF [] F).map (fun x => x.1.pid)).Nodup := pairs_pid_nodup F hn
  have hsub : List.Sublist (pairsT anc t) (pairsF [] F) := by
    rw [hseg, List.append_assoc]
    exact List.Sublist.trans (List.sublist_append_left _ B) (List.sublist_append_right A _)
  have h2 : ((pairsT anc t).map (fun x => x.1.pid)).Nodup := h1.sublist (hsub.map _)
  have h3 : (pairsT anc t).map (fun x => x.1.pid) = (t :: descT t).map PTree.pid := by
    rw [show (fun x : PTree × List PTree => x.1.pid) = PTree.pid ∘ Prod.fst from rfl,
        ← List.map_map, pairsT_map_fst]
  rw [h3] at h2
  exact h2

theorem desc_mem (F : List PTree)
    (hn : ((descF F).map PTree.pid).Nodup) :
    ∀ t anc, (t, anc) ∈ pairsF [] F → ∀ d ∈ descT t,
      ∃ danc mid, (d, danc) ∈ pairsF [] F ∧ danc = mid ++ t :: anc ∧
        ∀ x ∈ mid, x ∈ descT t := by
  intro t anc hm d hd
  obtain ⟨A, B, hseg⟩ := segment_F [] F t anc hm
  have hdm : d ∈ (pairsT anc t).map Prod.fst := by
    rw [pairsT_map_fst]
    exact List.mem_cons_of_mem _ hd
  obtain ⟨⟨d2, danc⟩, hdp, hfst⟩ := List.mem_map.mp hdm
  have hd2 : d2 = d := hfst
  subst hd2
  have hdL : (d2, danc) ∈ pairsF [] F := by
    rw [hseg]
    exact List.mem_append_left _ (List.mem_append_right A hdp)
  rcases pairs_anc_T anc t d2 danc hdp with ⟨heq, _⟩ | ⟨mid, hmid, hx, _⟩
  · exfalso
    have hnd := seg_pid_nodup F hn t anc hm
    rw [List.map_cons] at hnd
    have hmem := List.mem_map_of_mem PTree.pid hd
    rw [heq] at hmem
    exact (List.nodup_cons.mp hnd).1 hmem
  · exact ⟨danc, mid, hdL, hmid, hx⟩

theorem anc_chain_desc (F : List PTree) :
    ∀ t anc, (t, anc) ∈ pairsF [] F →
      List.Pairwise (fun a b => a ∈ descT b) (t :: anc) := by
  intro t anc hm
  refine pairwise_of_splits _ _ ?_
  intro A x B hAB y hy
  cases A with
  | nil =>
    simp only [List.nil_append, List.cons.injEq] at hAB
    obtain ⟨h1, h2⟩ := hAB
    obtain ⟨pre, post, hpre⟩ := List.append_of_mem hy
    have hres := anc_mem F t anc pre y post hm (by rw [h2, hpre])
    exact h1 ▸ hres.2
  | cons z A2 =>
    simp only [List.cons_append, List.cons.injEq] at hAB
    obtain ⟨_, hanc⟩ := hAB
    have hx := anc_mem F t anc A2 x B hm hanc
    obtain ⟨pre, post, hpre⟩ := List.append_of_mem hy
    exact (anc_mem F x B pre y post hx.1 hpre).2

theorem anc_pid_nodup (F : List PTree)
    (hn : ((descF F).map PTree.pid).Nodup) :
    ∀ t anc, (t, anc) ∈ pairsF [] F → ((t :: anc).map PTree.pid).Nodup := by
  intro t anc hm
  rw [List.Nodup, List.pairwise_map]
  have hchain := anc_chain_desc F t anc hm
  refine List.Pairwise.imp_of_mem ?_ hchain
  intro a b ha hb hdesc heq
  have hbL : ∃ banc, (b, banc) ∈ pairsF [] F := by
    rcases List.mem_cons.mp hb with rfl | hb
    · exact ⟨anc, hm⟩
    · obtain ⟨pre, post, hpre⟩ := List.append_of_mem hb
      exact ⟨post, (anc_mem F t anc pre b post hm hpre).1⟩
  obtain ⟨banc, hbL⟩ := hbL
  have hnd := seg_pid_nodup F hn b banc hbL
  rw [List.map_cons] at hnd
  exact (List.nodup_cons.mp hnd).1 (heq ▸ List.mem_map_of_mem _ hdesc)

theorem order_mem (F : List PTree) :
    ∀ l₁ u anc l₂, pairsF [] F = l₁ ++ (u, anc) :: l₂ →
      ∀ a ∈ anc, ∃ anc2, (a, anc2) ∈ l₁ := by
  intro l₁ u anc l₂ hsplit a ha
  rcases order_F [] F l₁ u anc l₂ hsplit a ha with h | h
  · cases h
  · exact h

theorem setVisible_false_iff (E : Nat → Bool) (p q : Nat) :
    setVisible E p q = false ↔ (q = p ∨ E q = false) := by
  rw [setVisible]
  by_cases h : q = p
  · simp [h]
  · simp [h]

theorem pair_eq_split {α β : Type} {a c : α} {b d : β} (h : (a, b) = (c, d)) :
    a = c ∧ b = d :=
  ⟨congrArg Prod.fst h, congrArg Prod.snd h⟩

/-! ## The pickup algorithm (claim C1) -/

theorem pickupBranch_false_iff :
    ∀ (l : List PTree) (E : Nat → Bool), (l.map PTree.pid).Nodup →
      List.Pairwise (fun a b => E a.pid = false → E b.pid = false) l →
      ∀ p, (pickupBranch E l p = false ↔ (E p = false ∨ p ∈ l.map PTree.pid)) := by
  intro l
  induction l with
  | nil =>
    intro E _ _ p
    rw [pickupBranch]
    simp
  | cons t rest ih =>
    intro E hnd hpw p
    rw [pickupBranch]
    rw [List.map_cons] at hnd
    obtain ⟨htp, hnd2⟩ := List.nodup_cons.mp hnd
    obtain ⟨hhead, hpw2⟩ := List.pairwise_cons.mp hpw
    by_cases hE : E t.pid = true
    · rw [if_pos hE]
      have hpw3 : List.Pairwise
          (fun a b => setVisible E t.pid a.pid = false →
            setVisible E t.pid b.pid = false) rest := by
        refine List.Pairwise.imp_of_mem ?_ hpw2
        intro a b ha _ hab hEa
        rw [setVisible_false_iff] at hEa ⊢
        rcases hEa with h | h
        · exfalso
          have hmm := List.mem_map_of_mem PTree.pid ha
          rw [h] at hmm
          exact htp hmm
        · exact Or.inr (hab h)
      rw [ih (setVisible E t.pid) hnd2 hpw3 p, setVisible_false_iff, List.map_cons]
      constructor
      · rintro ((h | h) | h)
        · refine Or.inr ?_
          rw [h]
          exact List.mem_cons_self _ _
        · exact Or.inl h
        · exact Or.inr (List.mem_cons_of_mem _ h)
      · rintro (h | h)
        · exact Or.inl (Or.inr h)
        · rcases List.mem_cons.mp h with h | h
          · exact Or.inl (Or.inl h)
          · exact Or.inr h
    · rw [if_neg hE]
      rw [Bool.not_eq_true] at hE
      rw [List.map_cons]
      constructor
      · exact Or.inl
      · rintro (h | h)
        · exact h
        · rcases List.mem_cons.mp h with h | h
          · rw [h]
            exact hE
          · obtain ⟨b, hb, hbp⟩ := List.mem_map.mp h
            rw [← hbp]
            exact hhead b hb hE

theorem pickupLoop_invariant (F : List PTree) (f : ProcessFinder)
    (hn : ((descF F).map PTree.pid).Nodup) :
    ∀ l₂ l₁ (E : Nat → Bool), pairsF [] F = l₁ ++ l₂ →
      (∀ p, E p = false ↔
        ∃ m manc, (m, manc) ∈ l₁ ∧ f.matches m.pid m.name = true ∧
          (p = m.pid ∨ p ∈ manc.map PTree.pid ∨ p ∈ (descT m).map PTree.pid)) →
      (∀ x xanc, (x, xanc) ∈ pairsF [] F → E x.pid = false →
        ∀ a ∈ xanc, E a.pid = false) →
      ((∀ p, pickupLoop f E l₂ p = false ↔
        ∃ m manc, (m, manc) ∈ pairsF [] F ∧ f.matches m.pid m.name = true ∧
          (p = m.pid ∨ p ∈ manc.map PTree.pid ∨ p ∈ (descT m).map PTree.pid)) ∧
       (∀ x xanc, (x, xanc) ∈ pairsF [] F → pickupLoop f E l₂ x.pid = false →
         ∀ a ∈ xanc, pickupLoop f E l₂ a.pid = false)) := by
  intro l₂
  induction l₂ with
  | nil =>
    intro l₁ E hsplit hInv hUp
    rw [List.append_nil] at hsplit
    subst hsplit
    constructor
    · intro p
      rw [pickupLoop]
      exact hInv p
    · intro x xanc hx hE a ha
      rw [pickupLoop] at hE ⊢
      exact hUp x xanc hx hE a ha
  | cons hd rest ih =>
    obtain ⟨t, anc⟩ := hd
    intro l₁ E hsplit hInv hUp
    have htL : (t, anc) ∈ pairsF [] F := by
      rw [hsplit]
      exact List.mem_append_right _ (List.mem_cons_self _ _)
    have hfresh : ∀ x ∈ l₁, x.1.pid ≠ t.pid := by
      have hpn := pairs_pid_nodup F hn
      rw [hsplit] at hpn
      exact (nodup_map_mid _ l₁ rest (t, anc) hpn).1
    rw [pickupLoop]
    by_cases hmatch : f.matches t.pid t.name = false
    · rw [if_pos hmatch]
      refine ih (l₁ ++ [(t, anc)]) E (by rw [hsplit, List.append_assoc]; rfl) ?_ hUp
      intro p
      rw [hInv p]
      constructor
      · rintro ⟨m, manc, hm, hmt, hp⟩
        exact ⟨m, manc, List.mem_append_left _ hm, hmt, hp⟩
      · rintro ⟨m, manc, hm, hmt, hp⟩
        rcases List.mem_append.mp hm with hm | hm
        · exact ⟨m, manc, hm, hmt, hp⟩
        · rcases List.mem_cons.mp hm with heq | hfalse
          · exfalso
            obtain ⟨h1, _⟩ := pair_eq_split heq
            rw [h1] at hmt
            rw [hmatch] at hmt
            exact Bool.noConfusion hmt
          · cases hfalse
    · rw [if_neg hmatch]
      have hmt : f.matches t.pid t.name = true := by
        rcases Bool.eq_false_or_eq_true (f.matches t.pid t.name) with h | h
        · exact h
        · exact absurd h hmatch
      by_cases hE : E t.pid = false
      · rw [if_pos hE]
        refine ih (l₁ ++ [(t, anc)]) E (by rw [hsplit, List.append_assoc]; rfl) ?_ hUp
        intro p
        rw [hInv p]
        constructor
        · rintro ⟨m, manc, hm, hmt2, hp⟩
          exact ⟨m, manc, List.mem_append_left _ hm, hmt2, hp⟩
        · rintro ⟨m, manc, hm, hmt2, hp⟩
          rcases List.mem_append.mp hm with hm | hm
          · exact ⟨m, manc, hm, hmt2, hp⟩
          · rcases List.mem_cons.mp hm with heq | hfalse
            swap
            · cases hfalse
            obtain ⟨h1, h2⟩ := pair_eq_split heq
            rw [h1] at hp
            rw [h2] at hp
            obtain ⟨m₀, manc₀, hm₀, hmt₀, hp₀⟩ := (hInv t.pid).mp hE
            have hm₀L : (m₀, manc₀) ∈ pairsF [] F := by
              rw [hsplit]
              exact List.mem_append_left _ hm₀
            rcases hp₀ with hp₀ | hp₀ | hp₀
            · exact absurd hp₀.symm (hfresh _ hm₀)
            · exfalso
              obtain ⟨a, ha, hap⟩ := List.mem_map.mp hp₀
              obtain ⟨pre, post, hdec⟩ := List.append_of_mem ha
              obtain ⟨A₀, B₀, hl₁⟩ := List.append_of_mem hm₀
              have hLsplit : pairsF [] F =
                  A₀ ++ (m₀, manc₀) :: (B₀ ++ (t, anc) :: rest) := by
                rw [hsplit, hl₁]
                simp
              obtain ⟨anc2, hanc2⟩ := order_mem F A₀ m₀ manc₀ _ hLsplit a ha
              have hal₁ : (a, anc2) ∈ l₁ := by
                rw [hl₁]
                exact List.mem_append_left _ hanc2
              exact (hfresh _ hal₁) hap
            · obtain ⟨d, hdm, hdp⟩ := List.mem_map.mp hp₀
              obtain ⟨danc, mid, hdL, hdanc, hmidsub⟩ :=
                desc_mem F hn m₀ manc₀ hm₀L d hdm
              have hpair := pairs_pid_inj F hn (d, danc) hdL (t, anc) htL hdp
              obtain ⟨hdt, hdanc2⟩ := pair_eq_split hpair
              refine ⟨m₀, manc₀, hm₀, hmt₀, ?_⟩
              rcases hp with hp | hp | hp
              · right; right
                rw [hp, ← hdt]
                exact List.mem_map_of_mem _ hdm
              · obtain ⟨x, hx, hxp⟩ := List.mem_map.mp hp
                have hx2 : x ∈ mid ++ m₀ :: manc₀ := by
                  rw [← hdanc, hdanc2]
                  exact hx
                rcases List.mem_append.mp hx2 with hx2 | hx2
                · right; right
                  rw [← hxp]
                  exact List.mem_map_of_mem _ (hmidsub x hx2)
                · rcases List.mem_cons.mp hx2 with heq2 | hx2
                  · left
                    rw [← hxp, heq2]
                  · right; left
                    rw [← hxp]
                    exact List.mem_map_of_mem _ hx2
              · right; right
                obtain ⟨x, hx, hxp⟩ := List.mem_map.mp hp
                rw [← hxp]
                refine List.mem_map_of_mem _ (descT_trans m₀ t ?_ x hx)
                rw [← hdt]
                exact hdm
      · rw [if_neg hE]
        have hanc_nodup := anc_pid_nodup F hn t anc htL
        have hseg_nd := seg_pid_nodup F hn t anc htL
        have hanc_nodup2 : (t.pid :: anc.map PTree.pid).Nodup := by
          rw [← List.map_cons]
          exact hanc_nodup
        have hseg_nd2 : (t.pid :: (descT t).map PTree.pid).Nodup := by
          rw [← List.map_cons]
          exact hseg_nd
        have hE2 : ∀ p, pickupBranch (setVisible E t.pid) anc p = false ↔
            (p = t.pid ∨ E p = false ∨ p ∈ anc.map PTree.pid) := by
          have hnd2 : (anc.map PTree.pid).Nodup := (List.nodup_cons.mp hanc_nodup2).2
          have hpw : List.Pairwise (fun a b => setVisible E t.pid a.pid = false →
              setVisible E t.pid b.pid = false) anc := by
            refine pairwise_of_splits _ _ ?_
            intro A x B hAB y hy hEx
            rw [setVisible_false_iff] at hEx ⊢
            rcases hEx with h | h
            · exfalso
              have hmm : t.pid ∈ anc.map PTree.pid := by
                rw [← h]
                refine List.mem_map_of_mem _ ?_
                rw [hAB]
                exact List.mem_append_right _ (List.mem_cons_self _ _)
              exact (List.nodup_cons.mp hanc_nodup2).1 hmm
            · have hxB := (anc_mem F t anc A x B htL hAB).1
              exact Or.inr (hUp x B hxB h y hy)
          intro p
          rw [pickupBranch_false_iff anc (setVisible E t.pid) hnd2 hpw p,
              setVisible_false_iff]
          tauto
        have hdesc_hidden : ∀ d ∈ descT t,
            pickupBranch (setVisible E t.pid) anc d.pid = true := by
          intro d hd
          rcases Bool.eq_false_or_eq_true
            (pickupBranch (setVisible E t.pid) anc d.pid) with h | h
          · exact h
          exfalso
          rw [hE2 d.pid] at h
          obtain ⟨danc, mid, hdL, hdanc, hmidsub⟩ := desc_mem F hn t anc htL d hd
          rcases h with h | h | h
          · have hmm : t.pid ∈ (descT t).map PTree.pid := by
              rw [← h]
              exact List.mem_map_of_mem _ hd
            exact (List.nodup_cons.mp hseg_nd2).1 hmm
          · obtain ⟨m₀, manc₀, hm₀, hmt₀, hp₀⟩ := (hInv d.pid).mp h
            have hm₀L : (m₀, manc₀) ∈ pairsF [] F := by
              rw [hsplit]
              exact List.mem_append_left _ hm₀
            have hEt_false : E t.pid = false := by
              rw [hInv t.pid]
              rcases hp₀ with hp₀ | hp₀ | hp₀
              · have hpair := pairs_pid_inj F hn (d, danc) hdL (m₀, manc₀) hm₀L hp₀
                obtain ⟨_, hdanc2⟩ := pair_eq_split hpair
                refine ⟨m₀, manc₀, hm₀, hmt₀, Or.inr (Or.inl ?_)⟩
                rw [← hdanc2, hdanc]
                exact List.mem_map_of_mem _
                  (List.mem_append_right mid (List.mem_cons_self _ _))
              · obtain ⟨a, ha, hap⟩ := List.mem_map.mp hp₀
                obtain ⟨pre, post, hdec⟩ := List.append_of_mem ha
                have haL := (anc_mem F m₀ manc₀ pre a post hm₀L hdec).1
                have hpair := pairs_pid_inj F hn (a, post) haL (d, danc) hdL hap
                obtain ⟨_, hpost⟩ := pair_eq_split hpair
                refine ⟨m₀, manc₀, hm₀, hmt₀, Or.inr (Or.inl ?_)⟩
                have htpost : t ∈ post := by
                  rw [hpost, hdanc]
                  exact List.mem_append_right mid (List.mem_cons_self _ _)
                rw [hdec]
                exact List.mem_map_of_mem _
                  (List.mem_append_right pre (List.mem_cons_of_mem _ htpost))
              · obtain ⟨d2, hd2m, hd2p⟩ := List.mem_map.mp hp₀
                obtain ⟨danc2, mid2, hd2L, hdanc2, hmid2sub⟩ :=
                  desc_mem F hn m₀ manc₀ hm₀L d2 hd2m
                have hpair := pairs_pid_inj F hn (d2, danc2) hd2L (d, danc) hdL hd2p
                obtain ⟨_, hdancs⟩ := pair_eq_split hpair
                have hboth : danc = mid2 ++ m₀ :: manc₀ := by
                  rw [← hdancs, hdanc2]
                rcases two_mem_split danc mid t anc mid2 m₀ manc₀ hdanc hboth with
                  ⟨h1, _, _⟩ | hmem | hmem
                · refine ⟨m₀, manc₀, hm₀, hmt₀, Or.inl ?_⟩
                  rw [h1]
                · obtain ⟨pre3, post3, hdec3⟩ := List.append_of_mem hmem
                  have hdsc := (anc_mem F t anc pre3 m₀ post3 htL hdec3).2
                  exact ⟨m₀, manc₀, hm₀, hmt₀,
                    Or.inr (Or.inr (List.mem_map_of_mem _ hdsc))⟩
                · exact ⟨m₀, manc₀, hm₀, hmt₀,
                    Or.inr (Or.inl (List.mem_map_of_mem _ hmem))⟩
            exact hE hEt_false
          · obtain ⟨a, ha, hap⟩ := List.mem_map.mp h
            obtain ⟨pre, post, hdec⟩ := List.append_of_mem ha
            have haL := anc_mem F t anc pre a post htL hdec
            have hpair := pairs_pid_inj F hn (a, post) haL.1 (d, danc) hdL hap
            obtain ⟨had, _⟩ := pair_eq_split hpair
            have htt : t ∈ descT t := by
              refine descT_trans t d hd t ?_
              rw [← had]
              exact haL.2
            exact (List.nodup_cons.mp hseg_nd2).1 (List.mem_map_of_mem _ htt)
        have hE3 : ∀ p,
            pickupBranch (pickupBranch (setVisible E t.pid) anc) (descT t) p = false ↔
            (p = t.pid ∨ E p = false ∨ p ∈ anc.map PTree.pid ∨
              p ∈ (descT t).map PTree.pid) := by
          have hnd3 : ((descT t).map PTree.pid).Nodup := (List.nodup_cons.mp hseg_nd2).2
          have hpw : List.Pairwise (fun a b =>
              pickupBranch (setVisible E t.pid) anc a.pid = false →
              pickupBranch (setVisible E t.pid) anc b.pid = false) (descT t) := by
            refine pairwise_of_splits _ _ ?_
            intro A x B hAB y hy hEx
            exfalso
            have hxd : x ∈ descT t := by
              rw [hAB]
              exact List.mem_append_right _ (List.mem_cons_self _ _)
            rw [hdesc_hidden x hxd] at hEx
            exact Bool.noConfusion hEx
          intro p
          rw [pickupBranch_false_iff (descT t) _ hnd3 hpw p, hE2 p]
          tauto
        refine ih (l₁ ++ [(t, anc)]) _ (by rw [hsplit, List.append_assoc]; rfl) ?_ ?_
        · intro p
          rw [hE3 p]
          constructor
          · rintro (h | h | h | h)
            · exact ⟨t, anc, List.mem_append_right _ (List.mem_cons_self _ _),
                hmt, Or.inl h⟩
            · obtain ⟨m, manc, hm, hmt2, hp⟩ := (hInv p).mp h
              exact ⟨m, manc, List.mem_append_left _ hm, hmt2, hp⟩
            · exact ⟨t, anc, List.mem_append_right _ (List.mem_cons_self _ _),
                hmt, Or.inr (Or.inl h)⟩
            · exact ⟨t, anc, List.mem_append_right _ (List.mem_cons_self _ _),
                hmt, Or.inr (Or.inr h)⟩
          · rintro ⟨m, manc, hm, hmt2, hp⟩
            rcases List.mem_append.mp hm with hm | hm
            · exact Or.inr (Or.inl ((hInv p).mpr ⟨m, manc, hm, hmt2, hp⟩))
            · rcases List.mem_cons.mp hm with heq | hfalse
              swap
              · cases hfalse
              obtain ⟨h1, h2⟩ := pair_eq_split heq
              rw [h1] at hp
              rw [h2] at hp
              rcases hp with hp | hp | hp
              · exact Or.inl hp
              · exact Or.inr (Or.inr (Or.inl hp))
              · exact Or.inr (Or.inr (Or.inr hp))
        · intro x xanc hx hEx a ha
          rw [hE3] at hEx ⊢
          rcases hEx with h | h | h | h
          · have hpair := pairs_pid_inj F hn (x, xanc) hx (t, anc) htL h
            obtain ⟨_, hxanc⟩ := pair_eq_split hpair
            right; right; left
            refine List.mem_map_of_mem _ ?_
            rw [← hxanc]
            exact ha
          · exact Or.inr (Or.inl (hUp x xanc hx h a ha))
          · obtain ⟨a₀, ha₀, hap₀⟩ := List.mem_map.mp h
            obtain ⟨pre, post, hdec⟩ := List.append_of_mem ha₀
            have haL := anc_mem F t anc pre a₀ post htL hdec
            have hpair := pairs_pid_inj F hn (a₀, post) haL.1 (x, xanc) hx hap₀
            obtain ⟨_, hpostx⟩ := pair_eq_split hpair
            right; right; left
            refine List.mem_map_of_mem _ ?_
            rw [hdec]
            refine List.mem_append_right pre (List.mem_cons_of_mem _ ?_)
            rw [hpostx]
            exact ha
          · obtain ⟨d, hdm, hdp⟩ := List.mem_map.mp h
            obtain ⟨danc, mid, hdL, hdanc, hmidsub⟩ := desc_mem F hn t anc htL d hdm
            have hpair := pairs_pid_inj F hn (d, danc) hdL (x, xanc) hx hdp
            obtain ⟨_, hdancx⟩ := pair_eq_split hpair
            have ha2 : a ∈ mid ++ t :: anc := by
              rw [← hdanc, hdancx]
              exact ha
            rcases List.mem_append.mp ha2 with h2 | h2
            · right; right; right
              exact List.mem_map_of_mem _ (hmidsub a h2)
            · rcases List.mem_cons.mp h2 with heq2 | h2
              · left
                rw [heq2]
              · right; right; left
                exact List.mem_map_of_mem _ h2

/-- The outcome of the search pass: pid-level characterization and
upward closure of the visible set. -/
theorem pickup_result (f : ProcessFinder) (F : List PTree)
    (hn : ((descF F).map PTree.pid).Nodup) :
    (∀ p, pickupLoop f (fun _ => true) (pairsF [] F) p = false ↔
      ∃ m manc, (m, manc) ∈ pairsF [] F ∧ f.matches m.pid m.name = true ∧
        (p = m.pid ∨ p ∈ manc.map PTree.pid ∨ p ∈ (descT m).map PTree.pid)) ∧
    (∀ x xanc, (x, xanc) ∈ pairsF [] F →
      pickupLoop f (fun _ => true) (pairsF [] F) x.pid = false →
      ∀ a ∈ xanc, pickupLoop f (fun _ => true) (pairsF [] F) a.pid = false) := by
  have hInv0 : ∀ p, (fun _ : Nat => true) p = false ↔
      ∃ m manc, (m, manc) ∈ ([] : List (PTree × List PTree)) ∧
        f.matches m.pid m.name = true ∧
        (p = m.pid ∨ p ∈ manc.map PTree.pid ∨ p ∈ (descT m).map PTree.pid) := by
    intro p
    constructor
    · intro h
      exact Bool.noConfusion h
    · rintro ⟨m, manc, hm, _⟩
      cases hm
  have hUp0 : ∀ x xanc, (x, xanc) ∈ pairsF [] F → (fun _ : Nat => true) x.pid = false →
      ∀ a ∈ xanc, (fun _ : Nat => true) a.pid = false := by
    intro x xanc _ h
    exact Bool.noConfusion h
  exact pickupLoop_invariant F f hn (pairsF [] F) [] (fun _ => true) rfl hInv0 hUp0

/-- The pid-level closure condition coincides with the node-level
`searchClosure` on a duplicate-free forest. -/
theorem searchClosure_iff_pids (f : ProcessFinder) (F : List PTree)
    (hn : ((descF F).map PTree.pid).Nodup) :
    ∀ t anc, (t, anc) ∈ pairsF [] F →
      (searchClosure f F t ↔
        ∃ m manc, (m, manc) ∈ pairsF [] F ∧ f.matches m.pid m.name = true ∧
          (t.pid = m.pid ∨ t.pid ∈ manc.map PTree.pid ∨
            t.pid ∈ (descT m).map PTree.pid)) := by
  intro t anc htL
  rw [searchClosure]
  constructor
  · rintro (h | ⟨m, manc, hm, hmt, hp | hp⟩)
    · exact ⟨t, anc, htL, h, Or.inl rfl⟩
    · exact ⟨m, manc, hm, hmt, Or.inr (Or.inl (List.mem_map_of_mem _ hp))⟩
    · exact ⟨m, manc, hm, hmt, Or.inr (Or.inr (List.mem_map_of_mem _ hp))⟩
  · rintro ⟨m, manc, hm, hmt, hp⟩
    rcases hp with hp | hp | hp
    · have hpair := pairs_pid_inj F hn (t, anc) htL (m, manc) hm hp
      obtain ⟨h1, _⟩ := pair_eq_split hpair
      left
      rw [h1]
      exact hmt
    · obtain ⟨a, ha, hap⟩ := List.mem_map.mp hp
      obtain ⟨pre, post, hdec⟩ := List.append_of_mem ha
      have haL := (anc_mem F m manc pre a post hm hdec).1
      have hpair := pairs_pid_inj F hn (a, post) haL (t, anc) htL hap
      obtain ⟨h1, _⟩ := pair_eq_split hpair
      right
      refine ⟨m, manc, hm, hmt, Or.inl ?_⟩
      rw [← h1]
      exact ha
    · obtain ⟨d, hdm, hdp⟩ := List.mem_map.mp hp
      obtain ⟨danc, mid, hdL, _, _⟩ := desc_mem F hn m manc hm d hdm
      have hpair := pairs_pid_inj F hn (d, danc) hdL (t, anc) htL hdp
      obtain ⟨h1, _⟩ := pair_eq_split hpair
      right
      refine ⟨m, manc, hm, hmt, Or.inr ?_⟩
      rw [← h1]
      exact hdm

/-- C1: immediately after the search-with-context pass (before the
exclusion filter is re-applied), a node of a duplicate-free forest is
visible (its `excluded` flag is `False`) exactly when it matches a search
term, or is an ancestor of a node matching a search term, or is a
descendant of such a node — the skip-already-visible optimization included
in the modelled algorithm does not change this result. -/
theorem c1_search_context_pass (f : ProcessFinder) (F : List PTree)
    (hn : ((descF F).map PTree.pid).Nodup) :
    ∀ t anc, (t, anc) ∈ pairsF [] F →
      (pickupSearched f F t.pid = false ↔ searchClosure f F t) := by
  intro t anc htL
  rw [pickupSearched, (pickup_result f F hn).1 t.pid,
      searchClosure_iff_pids f F hn t anc htL]

theorem c1_search_context_pass_witness :
    ((descF [PTree.node ⟨1, "init"⟩ [PTree.node ⟨2, "bash"⟩
        [PTree.node ⟨3, "cat"⟩ []]]]).map PTree.pid).Nodup ∧
    (pickupSearched (buildFinder none ["bash"])
        [PTree.node ⟨1, "init"⟩ [PTree.node ⟨2, "bash"⟩ [PTree.node ⟨3, "cat"⟩ []]]]
        (PTree.node ⟨3, "cat"⟩ []).pid = false ↔
      searchClosure (buildFinder none ["bash"])
        [PTree.node ⟨1, "init"⟩ [PTree.node ⟨2, "bash"⟩ [PTree.node ⟨3, "cat"⟩ []]]]
        (PTree.node ⟨3, "cat"⟩ [])) :=
  ⟨by decide,
   c1_search_context_pass (buildFinder none ["bash"]) _ (by decide)
     (PTree.node ⟨3, "cat"⟩ [])
     [PTree.node ⟨2, "bash"⟩ [PTree.node ⟨3, "cat"⟩ []],
      PTree.node ⟨1, "init"⟩ [PTree.node ⟨2, "bash"⟩ [PTree.node ⟨3, "cat"⟩ []]]]
     (by simp [pairsF, pairsT])⟩

/-! ## Depth computation (claim C6) -/

theorem setDepth_same (m : Nat → Option Nat) (p : Nat) (v : Option Nat) :
    setDepth m p v p = v := by
  rw [setDepth]
  simp

theorem setDepth_other (m : Nat → Option Nat) (p : Nat) (v : Option Nat)
    (q : Nat) (hq : q ≠ p) : setDepth m p v q = m q := by
  rw [setDepth]
  simp [hq]

theorem setDepths_invariant (F : List PTree)
    (hn : ((descF F).map PTree.pid).Nodup) :
    ∀ l₂ l₁ (m : Nat → Option Nat), pairsF [] F = l₁ ++ l₂ →
      (∀ x xanc, (x, xanc) ∈ l₁ → m x.pid = some xanc.length) →
      (∀ t anc, (t, anc) ∈ pairsF [] F → setDepths l₂ m t.pid = some anc.length) := by
  intro l₂
  induction l₂ with
  | nil =>
    intro l₁ m hsplit hInv t anc htL
    rw [List.append_nil] at hsplit
    rw [setDepths]
    subst hsplit
    exact hInv t anc htL
  | cons hd rest ih =>
    obtain ⟨u, uanc⟩ := hd
    intro l₁ m hsplit hInv t anc htL
    have huL : (u, uanc) ∈ pairsF [] F := by
      rw [hsplit]
      exact List.mem_append_right _ (List.mem_cons_self _ _)
    have hfresh : ∀ x ∈ l₁, x.1.pid ≠ u.pid := by
      have hpn := pairs_pid_nodup F hn
      rw [hsplit] at hpn
      exact (nodup_map_mid _ l₁ rest (u, uanc) hpn).1
    cases uanc with
    | nil =>
      rw [setDepths]
      refine ih (l₁ ++ [(u, [])]) _ (by rw [hsplit, List.append_assoc]; rfl) ?_ t anc htL
      intro x xanc hx
      rcases List.mem_append.mp hx with hx | hx
      · rw [setDepth_other _ _ _ _ (hfresh (x, xanc) hx)]
        exact hInv x xanc hx
      · rcases List.mem_cons.mp hx with heq | hfalse
        swap
        · cases hfalse
        obtain ⟨h1, h2⟩ := pair_eq_split heq
        rw [h1, h2, setDepth_same]
        rfl
    | cons par rest2 =>
      have hparL : (par, rest2) ∈ pairsF [] F :=
        (anc_mem F u (par :: rest2) [] par rest2 huL rfl).1
      obtain ⟨anc2, hanc2⟩ :=
        order_mem F l₁ u (par :: rest2) rest hsplit par (List.mem_cons_self _ _)
      have hanc2L : (par, anc2) ∈ pairsF [] F := by
        rw [hsplit]
        exact List.mem_append_left _ hanc2
      have hpair := pairs_pid_inj F hn (par, anc2) hanc2L (par, rest2) hparL rfl
      obtain ⟨_, heq2⟩ := pair_eq_split hpair
      have hmpar : m par.pid = some rest2.length := by
        rw [← heq2]
        exact hInv par anc2 hanc2
      rw [setDepths, hmpar]
      refine ih (l₁ ++ [(u, par :: rest2)]) _
        (by rw [hsplit, List.append_assoc]; rfl) ?_ t anc htL
      intro x xanc hx
      rcases List.mem_append.mp hx with hx | hx
      · rw [setDepth_other _ _ _ _ (hfresh (x, xanc) hx)]
        exact hInv x xanc hx
      · rcases List.mem_cons.mp hx with heq | hfalse
        swap
        · cases hfalse
        obtain ⟨h1, h2⟩ := pair_eq_split heq
        rw [h1, h2, setDepth_same, List.length_cons]

/-- C6: after the depth computation every root node (empty ancestor
chain) has depth 0 and every non-root node's depth is its parent's depth
plus one. -/
theorem c6_depth_parent_plus_one (F : List PTree)
    (hn : ((descF F).map PTree.pid).Nodup) :
    ∀ t anc, (t, anc) ∈ pairsF [] F →
      (anc = [] → depthMap F t.pid = some 0) ∧
      (∀ par rest, anc = par :: rest →
        ∃ dp, depthMap F par.pid = some dp ∧ depthMap F t.pid = some (dp + 1)) := by
  intro t anc htL
  have hds := setDepths_invariant F hn (pairsF [] F) [] (fun _ => none) rfl
    (by intro x xanc hx; cases hx)
  have hts : depthMap F t.pid = some anc.length := hds t anc htL
  constructor
  · intro hanc
    rw [hanc] at hts
    exact hts
  · intro par rest hanc
    have hparL : (par, rest) ∈ pairsF [] F :=
      (anc_mem F t anc [] par rest htL (by rw [hanc]; rfl)).1
    refine ⟨rest.length, hds par rest hparL, ?_⟩
    rw [hanc] at hts
    exact hts

theorem c6_depth_parent_plus_one_witness :
    ((descF [PTree.node ⟨1, "init"⟩ [PTree.node ⟨2, "bash"⟩
        [PTree.node ⟨3, "cat"⟩ []]]]).map PTree.pid).Nodup ∧
    depthMap [PTree.node ⟨1, "init"⟩ [PTree.node ⟨2, "bash"⟩
        [PTree.node ⟨3, "cat"⟩ []]]] (PTree.node ⟨1, "init"⟩
        [PTree.node ⟨2, "bash"⟩ [PTree.node ⟨3, "cat"⟩ []]]).pid = some 0 ∧
    ∃ dp, depthMap [PTree.node ⟨1, "init"⟩ [PTree.node ⟨2, "bash"⟩
        [PTree.node ⟨3, "cat"⟩ []]]] (PTree.node ⟨1, "init"⟩
        [PTree.node ⟨2, "bash"⟩ [PTree.node ⟨3, "cat"⟩ []]]).pid = some dp ∧
      depthMap [PTree.node ⟨1, "init"⟩ [PTree.node ⟨2, "bash"⟩
        [PTree.node ⟨3, "cat"⟩ []]]] (PTree.node ⟨2, "bash"⟩
        [PTree.node ⟨3, "cat"⟩ []]).pid = some (dp + 1) :=
  ⟨by decide,
   (c6_depth_parent_plus_one _ (by decide) _ []
     (by simp [pairsF, pairsT])).1 rfl,
   (c6_depth_parent_plus_one _ (by decide)
     (PTree.node ⟨2, "bash"⟩ [PTree.node ⟨3, "cat"⟩ []])
     [PTree.node ⟨1, "init"⟩ [PTree.node ⟨2, "bash"⟩ [PTree.node ⟨3, "cat"⟩ []]]]
     (by simp [pairsF, pairsT])).2
     (PTree.node ⟨1, "init"⟩ [PTree.node ⟨2, "bash"⟩ [PTree.node ⟨3, "cat"⟩ []]])
     [] rfl⟩

/-! ## The pruned traversal and the exclusion pass (claims C4 and C2) -/

mutual
theorem iterT_mem_visible (E : Nat → Bool) (t : PTree) :
    ∀ u ∈ iterT E t, E u.pid = false := by
  match t with
  | .node i cs =>
    intro u hu
    rw [iterT] at hu
    by_cases h : E i.pid = true
    · rw [if_pos h] at hu
      cases hu
    · rw [if_neg h] at hu
      rw [Bool.not_eq_true] at h
      rcases List.mem_cons.mp hu with rfl | hu
      · exact h
      · exact iterF_mem_visible E cs u hu
theorem iterF_mem_visible (E : Nat → Bool) (ts : List PTree) :
    ∀ u ∈ iterF E ts, E u.pid = false := by
  match ts with
  | [] => intro u hu; cases hu
  | c :: rest =>
    intro u hu
    rw [iterF] at hu
    rcases List.mem_append.mp hu with h | h
    · exact iterT_mem_visible E c u h
    · exact iterF_mem_visible E rest u h
end

mutual
theorem iterT_sublist (E : Nat → Bool) (t : PTree) :
    List.Sublist (iterT E t) (t :: descT t) := by
  match t with
  | .node i cs =>
    rw [iterT, descT]
    by_cases h : E i.pid = true
    · rw [if_pos h]
      exact List.nil_sublist _
    · rw [if_neg h]
      exact List.Sublist.cons₂ _ (iterF_sublist E cs)
theorem iterF_sublist (E : Nat → Bool) (ts : List PTree) :
    List.Sublist (iterF E ts) (descF ts) := by
  match ts with
  | [] =>
    rw [iterF, descF]
  | c :: rest =>
    rw [iterF, descF]
    have h12 := List.Sublist.append (iterT_sublist E c) (iterF_sublist E rest)
    rw [List.cons_append] at h12
    exact h12
end

mutual
theorem iterT_complete (E : Nat → Bool) (path : List PTree) (t : PTree) :
    ∀ u anc, (u, anc) ∈ pairsT path t → E u.pid = false →
      (∀ a ∈ anc, E a.pid = false) → u ∈ iterT E t := by
  match t with
  | .node i cs =>
    intro u anc hm hEu hanc
    rw [pairsT] at hm
    rw [iterT]
    rcases List.mem_cons.mp hm with heq | hm
    · obtain ⟨h1, _⟩ := pair_eq_split heq
      subst h1
      have hneg : ¬ (E i.pid = true) := by
        intro hc
        rw [show E i.pid = E (PTree.node i cs).pid from rfl, hEu] at hc
        exact Bool.noConfusion hc
      rw [if_neg hneg]
      exact List.mem_cons_self _ _
    · obtain ⟨mid, hmid, _, _⟩ := pairs_anc_F (PTree.node i cs :: path) cs u anc hm
      have hnode : PTree.node i cs ∈ anc := by
        rw [hmid]
        exact List.mem_append_right mid (List.mem_cons_self _ _)
      have hEn := hanc _ hnode
      have hneg : ¬ (E i.pid = true) := by
        intro hc
        rw [show E i.pid = E (PTree.node i cs).pid from rfl, hEn] at hc
        exact Bool.noConfusion hc
      rw [if_neg hneg]
      exact List.mem_cons_of_mem _
        (iterF_complete E (PTree.node i cs :: path) cs u anc hm hEu hanc)
theorem iterF_complete (E : Nat → Bool) (path : List PTree) (ts : List PTree) :
    ∀ u anc, (u, anc) ∈ pairsF path ts → E u.pid = false →
      (∀ a ∈ anc, E a.pid = false) → u ∈ iterF E ts := by
  match ts with
  | [] => intro u anc hm; cases hm
  | c :: rest =>
    intro u anc hm hEu hanc
    rw [pairsF] at hm
    rw [iterF]
    rcases List.mem_append.mp hm with h | h
    · exact List.mem_append_left _ (iterT_complete E path c u anc h hEu hanc)
    · exact List.mem_append_right _ (iterF_complete E path rest u anc h hEu hanc)
end

mutual
theorem iterT_all_visible (t : PTree) :
    iterT (fun _ => false) t = t :: descT t := by
  match t with
  | .node i cs =>
    rw [iterT, descT, if_neg (fun hc => Bool.noConfusion hc), iterF_all_visible cs]
theorem iterF_all_visible (ts : List PTree) :
    iterF (fun _ => false) ts = descF ts := by
  match ts with
  | [] => rw [iterF, descF]
  | c :: rest =>
    rw [iterF, descF, iterT_all_visible c, iterF_all_visible rest, List.cons_append]
end

theorem markList_spec (f : ProcessFinder) (dm : Nat → Option Nat) :
    ∀ (ns : List PTree) (E : Nat → Bool), (ns.map PTree.pid).Nodup →
      ((∀ t ∈ ns, markList f dm ns E t.pid =
         exclusionMatch f t.pid t.name (dm t.pid)) ∧
       (∀ p, (∀ t ∈ ns, t.pid ≠ p) → markList f dm ns E p = E p)) := by
  intro ns
  induction ns with
  | nil =>
    intro E _
    refine ⟨fun t ht => absurd ht (List.not_mem_nil t), fun p _ => ?_⟩
    rw [markList]
  | cons u rest ih =>
    intro E hnd
    rw [List.map_cons] at hnd
    obtain ⟨hup, hnd2⟩ := List.nodup_cons.mp hnd
    constructor
    · intro t ht
      rw [markList]
      rcases List.mem_cons.mp ht with rfl | ht
      · have hfr : ∀ x ∈ rest, x.pid ≠ t.pid := by
          intro x hx hc
          exact hup (by rw [← hc]; exact List.mem_map_of_mem _ hx)
        rw [(ih _ hnd2).2 t.pid hfr]
        simp
      · exact (ih _ hnd2).1 t ht
    · intro p hp
      rw [markList]
      rw [(ih _ hnd2).2 p (fun t ht => hp t (List.mem_cons_of_mem _ ht))]
      have hqp : u.pid ≠ p := hp u (List.mem_cons_self _ _)
      simp [Ne.symm hqp]

theorem appendAll_depth_limit (f : ProcessFinder) (ts : List String) :
    (f.appendAll ts).depth_limit = f.depth_limit := by
  induction ts generalizing f with
  | nil => rfl
  | cons t rest ih =>
    rw [ProcessFinder.appendAll, ih, ProcessFinder.append]
    split <;> rfl

theorem buildFinder_depth_limit (dl : Option Int) (ts : List String) :
    (buildFinder dl ts).depth_limit = dl := by
  rw [buildFinder, appendAll_depth_limit]

theorem exclusionMatch_false_iff (f : ProcessFinder) (pid : Nat) (name : String)
    (d : Nat) :
    (exclusionMatch f pid name (some d) = false ↔
      (pid ∉ f.pids ∧ name ∉ f.names ∧
        ∀ lim, f.depth_limit = some lim → ((d : Int) ≤ lim))) := by
  rw [exclusionMatch]
  by_cases hm : f.matches pid name = true
  · rw [if_pos hm]
    rw [ProcessFinder.matches] at hm
    simp only [Bool.or_eq_true, decide_eq_true_eq] at hm
    constructor
    · intro h
      exact Bool.noConfusion h
    · rintro ⟨h1, h2, _⟩
      exact absurd hm (by tauto)
  · rw [if_neg hm]
    rw [ProcessFinder.matches] at hm
    simp only [Bool.or_eq_true, decide_eq_true_eq] at hm
    push_neg at hm
    cases hdl : f.depth_limit with
    | none =>
      constructor
      · intro _
        exact ⟨hm.1, hm.2, fun lim hc => Option.noConfusion hc⟩
      · intro _
        rfl
    | some lim =>
      constructor
      · intro h
        have h2 : decide ((d : Int) > lim) = false := h
        have hgt := of_decide_eq_false h2
        refine ⟨hm.1, hm.2, fun lim2 hl2 => ?_⟩
        have hlim : lim = lim2 := Option.some.inj hl2
        omega
      · rintro ⟨_, _, h3⟩
        have hle := h3 lim rfl
        show decide ((d : Int) > lim) = false
        exact decide_eq_false (by omega)

/-- C4: with no search terms, after the selection run a node of a
duplicate-free forest is visible iff its pid is not in the exclusion pid
set, its name is not in the exclusion name set, and, when a depth limit is
configured, its depth is at most the limit. -/
theorem c4_no_search_selection (exclTerms : List String) (dl : Option Int)
    (F : List PTree) (hn : ((descF F).map PTree.pid).Nodup) :
    ∀ t anc, (t, anc) ∈ pairsF [] F →
      (selectionRun [] exclTerms dl F t.pid = false ↔
        (t.pid ∉ (buildFinder dl exclTerms).pids ∧
         t.name ∉ (buildFinder dl exclTerms).names ∧
         ∀ lim, dl = some lim → ((anc.length : Int) ≤ lim))) := by
  intro t anc htL
  have hds := setDepths_invariant F hn (pairsF [] F) [] (fun _ => none) rfl
    (by intro x xanc hx; cases hx)
  have hdm : depthMap F t.pid = some anc.length := hds t anc htL
  have htmem : t ∈ descF F := by
    have hmm := List.mem_map_of_mem Prod.fst htL
    rw [pairsF_map_fst] at hmm
    exact hmm
  simp only [selectionRun]
  rw [if_neg (by simp)]
  rw [markExcluded, iterF_all_visible]
  rw [(markList_spec _ _ (descF F) _ hn).1 t htmem]
  rw [hdm, exclusionMatch_false_iff, buildFinder_depth_limit]

theorem c4_no_search_selection_witness :
    ((descF [PTree.node ⟨1, "init"⟩ [PTree.node ⟨2, "bash"⟩
        [PTree.node ⟨3, "cat"⟩ []]]]).map PTree.pid).Nodup ∧
    (selectionRun [] ["cat"] (some 1)
        [PTree.node ⟨1, "init"⟩ [PTree.node ⟨2, "bash"⟩ [PTree.node ⟨3, "cat"⟩ []]]]
        (PTree.node ⟨2, "bash"⟩ [PTree.node ⟨3, "cat"⟩ []]).pid = false ↔
      ((PTree.node ⟨2, "bash"⟩ [PTree.node ⟨3, "cat"⟩ []]).pid ∉
          (buildFinder (some 1) ["cat"]).pids ∧
       (PTree.node ⟨2, "bash"⟩ [PTree.node ⟨3, "cat"⟩ []]).name ∉
          (buildFinder (some 1) ["cat"]).names ∧
       ∀ lim, (some 1 : Option Int) = some lim →
         ((([PTree.node ⟨1, "init"⟩ [PTree.node ⟨2, "bash"⟩
             [PTree.node ⟨3, "cat"⟩ []]]] : List PTree).length : Int) ≤ lim))) :=
  ⟨by decide,
   c4_no_search_selection ["cat"] (some 1) _ (by decide)
     (PTree.node ⟨2, "bash"⟩ [PTree.node ⟨3, "cat"⟩ []])
     [PTree.node ⟨1, "init"⟩ [PTree.node ⟨2, "bash"⟩ [PTree.node ⟨3, "cat"⟩ []]]]
     (by simp [pairsF, pairsT])⟩

/-- C2 as the code behaves (amended): with at least one search term, after
the whole selection run a node of a duplicate-free forest is visible iff
it is in the search closure (match, ancestor of a match, or descendant of
a match) AND it does not match the exclusion filter — the exclusion filter
is re-applied over the search result and hides nodes the search pass
revealed, including ancestors/descendants beyond the depth limit or
matching an exclusion term. -/
theorem c2_exclusion_reapplied (searchTerms exclTerms : List String)
    (dl : Option Int) (F : List PTree)
    (hn : ((descF F).map PTree.pid).Nodup) (hs : 0 < searchTerms.length) :
    ∀ t anc, (t, anc) ∈ pairsF [] F →
      (selectionRun searchTerms exclTerms dl F t.pid = false ↔
        (searchClosure (buildFinder dl searchTerms) F t ∧
         exclusionMatch (buildFinder dl exclTerms) t.pid t.name
           (some anc.length) = false)) := by
  intro t anc htL
  have hds := setDepths_invariant F hn (pairsF [] F) [] (fun _ => none) rfl
    (by intro x xanc hx; cases hx)
  have hdm : depthMap F t.pid = some anc.length := hds t anc htL
  have hpk := pickup_result (buildFinder dl searchTerms) F hn
  simp only [selectionRun]
  rw [if_pos hs, markExcluded]
  have hiter_nd : ((iterF (pickupLoop (buildFinder dl searchTerms) (fun _ => true)
      (pairsF [] F)) F).map PTree.pid).Nodup :=
    hn.sublist ((iterF_sublist _ F).map _)
  by_cases hvis : pickupLoop (buildFinder dl searchTerms) (fun _ => true)
      (pairsF [] F) t.pid = false
  · have htmem : t ∈ iterF (pickupLoop (buildFinder dl searchTerms) (fun _ => true)
        (pairsF [] F)) F :=
      iterF_complete _ [] F t anc htL hvis (hpk.2 t anc htL hvis)
    rw [(markList_spec _ _ _ _ hiter_nd).1 t htmem]
    rw [hdm]
    have hclos : searchClosure (buildFinder dl searchTerms) F t := by
      rw [searchClosure_iff_pids _ F hn t anc htL]
      exact (hpk.1 t.pid).mp hvis
    constructor
    · intro h
      exact ⟨hclos, h⟩
    · rintro ⟨_, h⟩
      exact h
  · have hfr : ∀ x ∈ iterF (pickupLoop (buildFinder dl searchTerms) (fun _ => true)
        (pairsF [] F)) F, x.pid ≠ t.pid := by
      intro x hx hc
      have hxvis := iterF_mem_visible _ F x hx
      have hxdesc : x ∈ descF F := (iterF_sublist _ F).subset hx
      have htdesc : t ∈ descF F := by
        have hmm := List.mem_map_of_mem Prod.fst htL
        rw [pairsF_map_fst] at hmm
        exact hmm
      have hxt : x = t := List.inj_on_of_nodup_map hn hxdesc htdesc hc
      rw [hxt] at hxvis
      exact hvis hxvis
    rw [(markList_spec _ _ _ _ hiter_nd).2 t.pid hfr]
    have hnclos : ¬ searchClosure (buildFinder dl searchTerms) F t := by
      rw [searchClosure_iff_pids _ F hn t anc htL]
      intro hc
      exact hvis ((hpk.1 t.pid).mpr hc)
    constructor
    · intro h
      exact absurd h hvis
    · rintro ⟨hc, _⟩
      exact absurd hc hnclos

theorem c2_exclusion_reapplied_witness :
    ((descF [PTree.node ⟨1, "init"⟩ [PTree.node ⟨2, "bash"⟩
        [PTree.node ⟨3, "cat"⟩ []]]]).map PTree.pid).Nodup ∧
    0 < (["bash"] : List String).length ∧
    (selectionRun ["bash"] ["cat"] none
        [PTree.node ⟨1, "init"⟩ [PTree.node ⟨2, "bash"⟩ [PTree.node ⟨3, "cat"⟩ []]]]
        (PTree.node ⟨3, "cat"⟩ []).pid = false ↔
      (searchClosure (buildFinder none ["bash"])
        [PTree.node ⟨1, "init"⟩ [PTree.node ⟨2, "bash"⟩ [PTree.node ⟨3, "cat"⟩ []]]]
        (PTree.node ⟨3, "cat"⟩ []) ∧
       exclusionMatch (buildFinder none ["cat"]) (PTree.node ⟨3, "cat"⟩ []).pid
         (PTree.node ⟨3, "cat"⟩ []).name
         (some ([PTree.node ⟨2, "bash"⟩ [PTree.node ⟨3, "cat"⟩ []],
           PTree.node ⟨1, "init"⟩ [PTree.node ⟨2, "bash"⟩
             [PTree.node ⟨3, "cat"⟩ []]]] : List PTree).length) = false)) :=
  ⟨by decide, by decide,
   c2_exclusion_reapplied ["bash"] ["cat"] none _ (by decide) (by decide)
     (PTree.node ⟨3, "cat"⟩ [])
     [PTree.node ⟨2, "bash"⟩ [PTree.node ⟨3, "cat"⟩ []],
      PTree.node ⟨1, "init"⟩ [PTree.node ⟨2, "bash"⟩ [PTree.node ⟨3, "cat"⟩ []]]]
     (by simp [pairsF, pairsT])⟩

/-- C2 counterexample: in the chain init(1) → bash(2) → cat(3) with search
term `bash` and exclusion term `cat`, node 3 is a descendant of the
matching node and the search pass reveals it, yet in the final state it is
excluded again — the claim that it stays visible fails. -/
theorem c2_counterexample :
    PTree.node ⟨3, "cat"⟩ [] ∈
      descT (PTree.node ⟨2, "bash"⟩ [PTree.node ⟨3, "cat"⟩ []]) ∧
    (buildFinder none ["bash"]).matches 2 "bash" = true ∧
    pickupSearched (buildFinder none ["bash"])
      [PTree.node ⟨1, "init"⟩ [PTree.node ⟨2, "bash"⟩ [PTree.node ⟨3, "cat"⟩ []]]]
      3 = false ∧
    selectionRun ["bash"] ["cat"] none
      [PTree.node ⟨1, "init"⟩ [PTree.node ⟨2, "bash"⟩ [PTree.node ⟨3, "cat"⟩ []]]]
      3 = true := by
  refine ⟨?_, ?_, ?_, ?_⟩
  · simp [descT, descF]
  · decide
  · decide
  · decide

end Dog
